import Mathlib

/-!
Verification development for the vandrite nspell spell checker.

The TypeScript sources are shallowly embedded: JavaScript strings become
`List Char`, JavaScript objects used as char-keyed maps become association
structures, JavaScript numbers used for scoring become `Rat`, and the two
modules that are absent from the sources (the word-frequency scorer and
the DAWG prefix-match helper) are modelled from the specification, each
marked in its doc comment.  Machine floating point is modelled by exact
rationals; every score appearing in the development is exactly
representable, so no comparison in the embedded code paths is decided by
rounding behaviour.
-/

set_option maxRecDepth 4096

namespace NSpellV

/-- Strings of the embedded program: JavaScript strings as lists of chars. -/
abbrev Str := List Char

/-- Lowercasing of one character, as used by `String.prototype.toLowerCase`
on the ASCII range covered by this development. -/
def lcChar (c : Char) : Char := c.toLower

/-- Uppercasing of one character. -/
def ucChar (c : Char) : Char := c.toUpper

/-- Lowercase a whole string. -/
def lcStr (s : Str) : Str := s.map lcChar

/-- Uppercase a whole string. -/
def ucStr (s : Str) : Str := s.map ucChar

/-- Whitespace trimming from both ends (`String.prototype.trim`). -/
def trimStr (s : Str) : Str :=
  ((s.dropWhile Char.isWhitespace).reverse.dropWhile Char.isWhitespace).reverse

/-- Replacement of every non-overlapping occurrence of a literal pattern,
scanning left to right: the behaviour of `value.replace(re, to)` for a
global regular expression whose pattern is a literal string.  An empty
pattern leaves the string unchanged (the parser never produces one). -/
def replaceAllGo (pat rep : Str) : Nat → Str → Str
  | _, [] => []
  | 0, s => s
  | fuel + 1, c :: rest =>
    if pat ≠ [] ∧ pat.isPrefixOf (c :: rest) then
      rep ++ replaceAllGo pat rep fuel (rest.drop (pat.length - 1))
    else
      c :: replaceAllGo pat rep fuel rest

/-- Replacement entry point.  The fuel bounds the number of scan steps;
each step consumes at least one character, so the length of the string is
always enough. -/
def replaceAll (s pat rep : Str) : Str := replaceAllGo pat rep s.length s

/-- Conversion application from `util/index.ts` `normalize`: each
`(pattern, replacement)` pair is applied in order with a global replace. -/
def normalize (conversions : List (Str × Str)) (word : Str) : Str :=
  conversions.foldl (fun acc pr => replaceAll acc pr.1 pr.2) word

/-- Conversion application from `util/index.ts` `denormalize` (same body
as `normalize`, applied to the output conversions). -/
def denormalize (conversions : List (Str × Str)) (word : Str) : Str :=
  conversions.foldl (fun acc pr => replaceAll acc pr.1 pr.2) word

/-- Line splitting from `util/index.ts` `splitLines`: split on the regular
expression `\r?\n`, so a carriage return immediately before a line feed is
consumed with it. -/
def splitLinesGo (cur : Str) : Str → List Str
  | [] => [cur.reverse]
  | c :: rest =>
    if c = '\n' then
      (match cur with
       | '\r' :: cur2 => cur2.reverse
       | _ => cur.reverse) :: splitLinesGo [] rest
    else
      splitLinesGo (c :: cur) rest

/-- Line splitting entry point. -/
def splitLines (s : Str) : List Str := splitLinesGo [] s

/-- Flag membership from `util/index.ts` `hasFlag`: false when either the
flag or the flag list is missing, mirroring JavaScript falsiness (an
absent flag and the empty string are both falsy). -/
def hasFlag (flags : Option (List Str)) (flag : Option Str) : Bool :=
  match flag, flags with
  | some f, some fs => if f = [] then false else fs.contains f
  | _, _ => false

/-- Casing classification values from `types` `CasingType`. -/
inductive Casing : Type where
  | lower
  | upper
  | capitalized
  | mixed
deriving DecidableEq, Repr

/-- Casing detection from `util/index.ts` `detectCasing`. -/
def detectCasing (word : Str) : Option Casing :=
  if word = [] then none
  else
    let lower := lcStr word
    let upper := ucStr word
    if word = lower then some .lower
    else if word = upper then some .upper
    else if word.take 1 = ucStr (word.take 1) ∧ word.drop 1 = lower.drop 1 then
      some .capitalized
    else some .mixed

mutual

/-- Trie node from `util/dawg.ts`: an end-of-word marker, optional flag
list (present only when set by an `add` with a non-empty flag array), and
children keyed by character. -/
inductive Trie : Type where
  | node (isEnd : Bool) (flags : Option (List Str)) (children : Kids)

/-- Children of a trie node: the char-keyed JavaScript object, as an
insertion-ordered association structure with distinct keys. -/
inductive Kids : Type where
  | nil
  | cons (c : Char) (t : Trie) (rest : Kids)

end

/-- Lookup of one child by character. -/
def Kids.find : Kids → Char → Option Trie
  | .nil, _ => none
  | .cons k t rest, c => if k = c then some t else rest.find c

/-- Update of one child: replace an existing key in place or append a new
one, exactly as property assignment behaves on a JavaScript object. -/
def Kids.set : Kids → Char → Trie → Kids
  | .nil, c, t => .cons c t .nil
  | .cons k u rest, c, t =>
    if k = c then .cons k t rest else .cons k u (rest.set c t)

/-- Empty node (`createNode` in `util/dawg.ts`). -/
def Trie.empty : Trie := .node false none .nil

/-- End-of-word marker of a node. -/
def Trie.isEnd : Trie → Bool
  | .node e _ _ => e

/-- Flag list of a node. -/
def Trie.flags : Trie → Option (List Str)
  | .node _ f _ => f

/-- Children of a node. -/
def Trie.children : Trie → Kids
  | .node _ _ k => k

/-- Path walk of `DAWG.findNode`: follow the word character by character. -/
def Trie.findNode : Trie → Str → Option Trie
  | t, [] => some t
  | .node _ _ kids, c :: w =>
    match kids.find c with
    | some child => child.findNode w
    | none => none

/-- Insertion walk of `DAWG.add`: creates missing nodes along the path,
marks the last node as end-of-word, overwrites its flags when the given
flag list is non-empty, and reports whether a new terminal was created
(the condition under which the source increments `_size`). -/
def Trie.addGo : Trie → Str → List Str → Trie × Bool
  | .node e f kids, [], fl =>
    (.node true (if fl = [] then f else some fl) kids, !e)
  | .node e f kids, c :: w, fl =>
    let child := (kids.find c).getD Trie.empty
    let res := child.addGo w fl
    (.node e f (kids.set c res.1), res.2)

/-- Removal walk of `DAWG.remove`: clear the end marker and the flags of
the node reached by the word; the branch structure is kept (the source
does not compact orphaned nodes). -/
def Trie.removeGo : Trie → Str → Trie
  | .node _ _ kids, [] => .node false none kids
  | .node e f kids, c :: w =>
    match kids.find c with
    | some child => .node e f (kids.set c (child.removeGo w))
    | none => .node e f kids

/-- Word membership on the root (`DAWG.has`): the node exists and is an
end of word. -/
def Trie.containsW (t : Trie) (w : Str) : Bool :=
  match t.findNode w with
  | some n => n.isEnd
  | none => false

/-- Flag lookup on the root (`DAWG.getFlags`). -/
def Trie.getFlagsW (t : Trie) (w : Str) : Option (List Str) :=
  match t.findNode w with
  | some n => if n.isEnd then n.flags else none
  | none => none

mutual

/-- Terminal count from the source `countWords` helper used by
`DAWG.deserialize`: the number of end-of-word nodes in the trie. -/
def countWords : Trie → Nat
  | .node e _ kids => (if e then 1 else 0) + countKids kids

/-- Terminal count over a child list. -/
def countKids : Kids → Nat
  | .nil => 0
  | .cons _ t rest => countWords t + countKids rest

end

mutual

/-- Stored-word enumeration from the source `collectWords` generator:
yields the prefix at terminal nodes, then recurses into the children in
order. -/
def collectWords : Trie → Str → List Str
  | .node e _ kids, pre => (if e then [pre] else []) ++ collectKids kids pre

/-- Stored-word enumeration over a child list. -/
def collectKids : Kids → Str → List Str
  | .nil, _ => []
  | .cons c t rest, pre => collectWords t (pre ++ [c]) ++ collectKids rest pre

end

/-- DAWG wrapper from `util/dawg.ts`: a root node plus the `_size`
counter. -/
structure DAWG : Type where
  root : Trie
  size : Nat

/-- Empty DAWG (the constructor). -/
def DAWG.empty : DAWG := ⟨Trie.empty, 0⟩

/-- Word insertion (`DAWG.add`): empty words are ignored; the size
counter grows exactly when the insertion created a new terminal. -/
def DAWG.add (d : DAWG) (w : Str) (fl : List Str) : DAWG :=
  if w = [] then d
  else
    let res := d.root.addGo w fl
    ⟨res.1, d.size + (if res.2 then 1 else 0)⟩

/-- Word membership (`DAWG.has`). -/
def DAWG.has (d : DAWG) (w : Str) : Bool := d.root.containsW w

/-- Flag lookup (`DAWG.getFlags`). -/
def DAWG.getFlags (d : DAWG) (w : Str) : Option (List Str) := d.root.getFlagsW w

/-- Word removal (`DAWG.remove`): when the word is present its terminal
marker and flags are cleared and the size counter is decremented,
otherwise nothing changes. -/
def DAWG.remove (d : DAWG) (w : Str) : DAWG :=
  if d.root.containsW w then ⟨d.root.removeGo w, d.size - 1⟩ else d

/-- Prefix test (`DAWG.hasPrefix`): the node path for the prefix exists. -/
def DAWG.hasPrefix (d : DAWG) (p : Str) : Bool := (d.root.findNode p).isSome

/-- Bounded enumeration of the stored words extending a prefix, as in the
source generator `getWordsWithPrefix`. -/
def DAWG.wordsWithPre (d : DAWG) (p : Str) (maxResults : Nat) : List Str :=
  match d.root.findNode p with
  | some t => (collectWords t p).take maxResults
  | none => []

/-- Modelled from the spec: `DAWG.getPrefixMatches`, called by the
suggestion engine, is absent from the sources.  Its callers expect the
stored words that extend the given prefix, capped at a result limit, so
it is modelled as the bounded enumeration of the sibling source generator
`getWordsWithPrefix`. -/
def DAWG.getPrefixMatches (d : DAWG) (p : Str) (maxResults : Nat) : List Str :=
  d.wordsWithPre p maxResults

/-- Mutator alphabet for the trie-size invariant: the public `add` and
`remove` operations of the word graph. -/
inductive DawgOp : Type where
  | add (w : Str) (fl : List Str)
  | remove (w : Str)

/-- Execution of one word-graph operation. -/
def DawgOp.run (d : DAWG) : DawgOp → DAWG
  | .add w fl => d.add w fl
  | .remove w => d.remove w

/-- Execution of a sequence of word-graph operations from the empty
graph. -/
def runOps (ops : List DawgOp) : DAWG :=
  ops.foldl DawgOp.run DAWG.empty

mutual

/-- Character-keyed map used to embed the JavaScript `Map<string, boolean>`
memo of the suggestion engine; only membership and point lookup of that
map are observable, so a char trie with an optional value per node is a
faithful, efficiently evaluable model. -/
inductive StMap : Type where
  | node (val : Option Bool) (kids : StKids)

/-- Children of a memo-map node, keyed by character code so that key
comparisons are single natural-number comparisons. -/
inductive StKids : Type where
  | nil
  | cons (c : Nat) (m : StMap) (rest : StKids)

end

/-- Child lookup in the memo map. -/
def StKids.find : StKids → Nat → Option StMap
  | .nil, _ => none
  | .cons k m rest, c =>
    match Nat.beq k c with
    | true => some m
    | false => rest.find c

/-- Child update in the memo map. -/
def StKids.set : StKids → Nat → StMap → StKids
  | .nil, c, m => .cons c m .nil
  | .cons k u rest, c, m =>
    match Nat.beq k c with
    | true => .cons k m rest
    | false => .cons k u (rest.set c m)

/-- Empty memo map. -/
def StMap.empty : StMap := .node none .nil

/-- Point lookup (`memory.state.get` / `.has`). -/
def StMap.find : StMap → Str → Option Bool
  | .node v _, [] => v
  | .node _ kids, c :: w =>
    match kids.find c.toNat with
    | some m => m.find w
    | none => none

/-- Point insertion (`memory.state.set`). -/
def StMap.insert : StMap → Str → Bool → StMap
  | .node _ kids, [], b => .node (some b) kids
  | .node v kids, c :: w, b =>
    let child := (kids.find c.toNat).getD StMap.empty
    .node v (kids.set c.toNat (child.insert w b))

/-- Scalar flags and settings of an `AffixData` (`types` `AffixFlags`),
restricted to the fields the embedded code paths read.  Optional string
fields are `none` when the directive was absent. -/
structure AffixFlags : Type where
  KEY : List Str := []
  TRY : List Char := []
  MAP : List Str := []
  NOSUGGEST : Option Str := none
  WARN : Option Str := none
  FORBIDDENWORD : Option Str := none
  KEEPCASE : Option Str := none
  ONLYINCOMPOUND : Option Str := none
  NEEDAFFIX : Option Str := none
  COMPOUNDMIN : Nat := 3
  FORBIDWARN : Bool := false

/-- Result record of `spell` (`types` `SpellResult`). -/
structure SpellResult : Type where
  correct : Bool
  forbidden : Bool
  warn : Bool
deriving DecidableEq, Repr

/-- Ignore test from `util/form.ts` `shouldIgnore`: a case-cascade
candidate is skipped when its terminal carries `KEEPCASE`, or carries
`FORBIDDENWORD` while forbidden words are excluded. -/
def shouldIgnore (d : DAWG) (fl : AffixFlags) (word : Str) (all : Bool) : Bool :=
  hasFlag (d.getFlags word) fl.KEEPCASE ||
    (!all && hasFlag (d.getFlags word) fl.FORBIDDENWORD)

/-- Case cascade from `util/form.ts` `form`: exact match (rejecting
`ONLYINCOMPOUND`, and `FORBIDDENWORD` unless `all`), then sentence case
for all-uppercase input, then lowercase, each guarded by `shouldIgnore`. -/
def form (d : DAWG) (fl : AffixFlags) (conv : List (Str × Str)) (value : Str)
    (all : Bool) : Option Str :=
  let pre := trimStr value
  if pre = [] then none
  else
    let normal := normalize conv pre
    if d.has normal then
      let wordFlags := d.getFlags normal
      if !all && hasFlag wordFlags fl.FORBIDDENWORD then none
      else if hasFlag wordFlags fl.ONLYINCOMPOUND then none
      else some normal
    else
      let viaUpper : Option Str :=
        if ucStr normal = normal then
          let alternative := normal.take 1 ++ lcStr (normal.drop 1)
          if !shouldIgnore d fl alternative all ∧ d.has alternative then
            some alternative
          else none
        else none
      match viaUpper with
      | some alt => some alt
      | none =>
        let lower := lcStr normal
        if lower ≠ normal then
          if !shouldIgnore d fl lower all ∧ d.has lower then some lower
          else none
        else none

/-- Internal forbidden marker used by `personal` when the affix file
declares no `FORBIDDENWORD` code. -/
def forbiddenMarker : Str := ('_' :: '_' :: "FORBIDDEN".toList) ++ ['_', '_']

/-- Validity test from `index.ts` `isValidWord`: words without flags are
valid; the `FORBIDDENWORD` code, the internal forbidden marker, and the
`ONLYINCOMPOUND` code each make a word invalid. -/
def isValidWord (fl : AffixFlags) (flags : Option (List Str)) : Bool :=
  match flags with
  | none => true
  | some fs =>
    if fs = [] then true
    else if hasFlag (some fs) fl.FORBIDDENWORD then false
    else if fs.contains forbiddenMarker then false
    else if hasFlag (some fs) fl.ONLYINCOMPOUND then false
    else true

/-- Compound fallback from `index.ts` `checkCompound`: the token must be
at least twice `COMPOUNDMIN` long and match one of the compiled compound
rules, which are embedded as whole-token matchers. -/
def checkCompound (fl : AffixFlags) (rules : List (Str → Bool)) (word : Str) : Bool :=
  if word.length < fl.COMPOUNDMIN * 2 then false
  else if rules.isEmpty then false
  else rules.any (fun r => r word)

/-- Fallback path of `index.ts` `correct` past the direct lookup. -/
def correctSlow (fl : AffixFlags) (rules : List (Str → Bool)) (d : DAWG)
    (normalized : Str) : Bool :=
  let lower := lcStr normalized
  let viaLower : Bool :=
    if lower ≠ normalized then
      match d.root.findNode lower with
      | some n =>
        n.isEnd && isValidWord fl n.flags &&
          !hasFlag n.flags fl.KEEPCASE
      | none => false
    else false
  if viaLower then true
  else
    let viaSentence : Bool :=
      if normalized = ucStr normalized ∧ 1 < normalized.length then
        let sentenceCase := normalized.take 1 ++ lcStr (normalized.drop 1)
        match d.root.findNode sentenceCase with
        | some n =>
          n.isEnd && isValidWord fl n.flags &&
            !hasFlag n.flags fl.KEEPCASE
        | none => false
      else false
    if viaSentence then true
    else checkCompound fl rules normalized

/-- Word validation from `index.ts` `correct` (the standalone fast-path
implementation): trim, normalize when conversions exist, direct lookup,
then lowercase and sentence-case probes guarded by `KEEPCASE`, then the
compound fallback. -/
def correct (fl : AffixFlags) (conv : List (Str × Str))
    (rules : List (Str → Bool)) (d : DAWG) (word : Str) : Bool :=
  if word = [] then false
  else
    let trimmed := trimStr word
    if trimmed = [] then false
    else
      let normalized := if conv ≠ [] then normalize conv trimmed else trimmed
      match d.root.findNode normalized with
      | some n =>
        if n.isEnd then isValidWord fl n.flags
        else correctSlow fl rules d normalized
      | none => correctSlow fl rules d normalized

/-- Detailed validation from `index.ts` `spell`: find a form including
forbidden entries, then report forbidden and warn states from its flags,
falling back to compound matching when no form exists. -/
def spell (fl : AffixFlags) (conv : List (Str × Str))
    (rules : List (Str → Bool)) (d : DAWG) (word : Str) : SpellResult :=
  if word = [] then ⟨false, false, false⟩
  else
    let normalized := normalize conv (trimStr word)
    if normalized = [] then ⟨false, false, false⟩
    else
      match form d fl conv normalized true with
      | some f =>
        let flags := d.getFlags f
        let isForbidden :=
          hasFlag flags fl.FORBIDDENWORD || hasFlag flags (some forbiddenMarker)
        let isWarn := hasFlag flags fl.WARN
        { correct := !isForbidden && !(isWarn && fl.FORBIDWARN)
          forbidden := isForbidden
          warn := isWarn }
      | none =>
        { correct := checkCompound fl rules normalized
          forbidden := false
          warn := false }

/-- Affix rule kind (`PFX` or `SFX`). -/
inductive RuleType : Type where
  | PFX
  | SFX
deriving DecidableEq

/-- Affix entry from `types` `AffixEntry`; the compiled condition regular
expression is embedded as an abstract matcher. -/
structure AffixEntry : Type where
  add : Str
  remove : Str
  cond : Option (Str → Bool)
  continuation : List Str

/-- Affix rule from `types` `AffixRule`. -/
structure AffixRule : Type where
  type : RuleType
  combineable : Bool
  entries : List AffixEntry

/-- Rule lookup in the flag-code-keyed rule map. -/
def findRule (rules : List (Str × AffixRule)) (code : Str) : Option AffixRule :=
  match rules.find? (fun pr => pr.1 = code) with
  | some pr => some pr.2
  | none => none

mutual

/-- Affix expansion from `util/apply.ts` `apply`: each entry whose
condition holds contributes one derived form (checking the strip text at
the relevant end), then its continuation flags are expanded recursively.
The JavaScript recursion is bounded only by the call stack; the embedding
makes that bound explicit with a fuel argument, following the
specification note that implementations should cap continuation recursion
depth. -/
def applyRule (fuel : Nat) (value : Str) (rule : AffixRule)
    (rules : List (Str × AffixRule)) : List Str :=
  match fuel with
  | 0 => []
  | fuel + 1 => applyEntries fuel value rule.type rule.entries rules

/-- Entry loop of `apply`. -/
def applyEntries (fuel : Nat) (value : Str) (ty : RuleType)
    (entries : List AffixEntry) (rules : List (Str × AffixRule)) : List Str :=
  match entries with
  | [] => []
  | entry :: rest =>
    let matchOk :=
      match entry.cond with
      | none => true
      | some m => m value
    let here : List Str :=
      if matchOk then
        let next? : Option Str :=
          if entry.remove ≠ [] then
            match ty with
            | .SFX =>
              if entry.remove.isSuffixOf value then
                some (value.take (value.length - entry.remove.length) ++ entry.add)
              else none
            | .PFX =>
              if entry.remove.isPrefixOf value then
                some (entry.add ++ value.drop entry.remove.length)
              else none
          else
            some (match ty with
                  | .SFX => value ++ entry.add
                  | .PFX => entry.add ++ value)
        match next? with
        | some next =>
          next :: applyCont fuel next entry.continuation rules
        | none => []
      else []
    here ++ applyEntries fuel value ty rest rules

/-- Continuation loop of `apply`. -/
def applyCont (fuel : Nat) (next : Str) (cont : List Str)
    (rules : List (Str × AffixRule)) : List Str :=
  match cont with
  | [] => []
  | cf :: rest =>
    (match findRule rules cf with
     | some r => applyRule fuel next r rules
     | none => []) ++ applyCont fuel next rest rules

end

/-- Call-stack budget used when invoking the affix expander; continuation
chains in real dictionaries are shallow, and the specification suggests a
small cap. -/
def applyFuel : Nat := 16

/-- Compound-rule bucket update of `index.ts` `addWord`: when a bucket
for the code exists, the word is appended to it. -/
def bumpBucket (buckets : List (Str × List Str)) (code word : Str) :
    List (Str × List Str) :=
  buckets.map (fun pr => if pr.1 = code then (pr.1, pr.2 ++ [word]) else pr)

/-- Mutable state of an `NSpell` instance: the word graph and the
compound-rule code buckets (the compiled compound matchers are built once
at construction and are part of the immutable configuration). -/
structure NSpellState : Type where
  dawg : DAWG
  buckets : List (Str × List Str)

/-- Immutable configuration of an `NSpell` instance. -/
structure NSpellCfg : Type where
  flags : AffixFlags
  convIn : List (Str × Str) := []
  convOut : List (Str × Str) := []
  replacementTable : List (Str × Str) := []
  rules : List (Str × AffixRule) := []
  compoundRules : List (Str → Bool) := []

/-- Root insertion from `index.ts` `addWord`: insert the root itself
unless `NEEDAFFIX` applies, then for every flag code update the compound
bucket and expand the affix rule, inserting every derived and combined
form with an empty flag list. -/
def addWord (cfg : NSpellCfg) (st : NSpellState) (word : Str)
    (codes : List Str) : NSpellState :=
  let needAffixHit : Bool :=
    match cfg.flags.NEEDAFFIX with
    | some nf => !nf.isEmpty && codes.contains nf
    | none => false
  let d0 := if needAffixHit then st.dawg else st.dawg.add word codes
  codes.enum.foldl
    (fun acc ic =>
      let i := ic.1
      let code := ic.2
      let buckets2 :=
        if (acc.buckets.find? (fun pr => pr.1 = code)).isSome then
          bumpBucket acc.buckets code word
        else acc.buckets
      match findRule cfg.rules code with
      | some rule =>
        let newWords := applyRule applyFuel word rule cfg.rules
        let d2 := newWords.foldl
          (fun dAcc newWord =>
            let dAcc2 := dAcc.add newWord []
            if rule.combineable then
              codes.enum.foldl
                (fun dAcc3 kc =>
                  if kc.1 = i then dAcc3
                  else
                    match findRule cfg.rules kc.2 with
                    | some otherRule =>
                      if otherRule.combineable ∧ otherRule.type ≠ rule.type then
                        (applyRule applyFuel newWord otherRule cfg.rules).foldl
                          (fun dAcc4 comb => dAcc4.add comb []) dAcc3
                      else dAcc3
                    | none => dAcc3)
                dAcc2
            else dAcc2)
          acc.dawg
        ⟨d2, buckets2⟩
      | none => ⟨acc.dawg, buckets2⟩)
    ⟨d0, st.buckets⟩

/-- Public mutator `NSpell.add`: inherit the model word's flags when one
is given, then insert through `addWord`. -/
def nspellAdd (cfg : NSpellCfg) (st : NSpellState) (word : Str)
    (model : Option Str) : NSpellState :=
  if word = [] then st
  else
    let codes :=
      match model with
      | some m => if m = [] then [] else (st.dawg.getFlags m).getD []
      | none => []
    addWord cfg st word codes

/-- Forbidden code selected by `personal` for a star line: the declared
`FORBIDDENWORD` code, with the internal marker as the fallback for an
absent or falsy declaration. -/
def forbiddenFlagOf (fl : AffixFlags) : Str :=
  match fl.FORBIDDENWORD with
  | some f => if f = [] then forbiddenMarker else f
  | none => forbiddenMarker

/-- Line handler of `index.ts` `personal`: `*W` re-adds `W` with the
forbidden code appended to its existing flags, `W/M` adds `W` with `M`'s
flags, and any other non-blank line is a plain add. -/
def personalLine (cfg : NSpellCfg) (st : NSpellState) (line : Str) : NSpellState :=
  let trimmed := trimStr line
  if trimmed = [] then st
  else if trimmed.take 1 = ['*'] then
    let word := trimmed.drop 1
    let existingFlags := (st.dawg.getFlags word).getD []
    ⟨st.dawg.add word (existingFlags ++ [forbiddenFlagOf cfg.flags]), st.buckets⟩
  else if trimmed.contains '/' then
    let slashIdx := trimmed.findIdx (fun c => c = '/')
    let word := trimmed.take slashIdx
    let model := trimmed.drop (slashIdx + 1)
    nspellAdd cfg st word (some model)
  else
    nspellAdd cfg st trimmed none

/-- Personal-dictionary loader `NSpell.personal`. -/
def personal (cfg : NSpellCfg) (st : NSpellState) (content : Str) : NSpellState :=
  (splitLines content).foldl (personalLine cfg) st

/-- Exact fraction type standing in for the JavaScript numbers of the
scoring code: an unnormalized integer numerator over a positive natural
denominator.  Operations avoid gcd normalization so that they reduce
inside the kernel; every division performed by the embedded scoring code
has a positive divisor, and the unreachable zero-divisor case is mapped
to the zero fraction. -/
structure Q : Type where
  num : Int
  den : Nat
deriving Repr

/-- Fraction of two naturals. -/
def qq (n d : Nat) : Q := ⟨n, d⟩

/-- Addition of fractions. -/
def Q.add (a b : Q) : Q := ⟨a.num * b.den + b.num * a.den, a.den * b.den⟩

/-- Subtraction of fractions. -/
def Q.sub (a b : Q) : Q := ⟨a.num * b.den - b.num * a.den, a.den * b.den⟩

/-- Multiplication of fractions. -/
def Q.mul (a b : Q) : Q := ⟨a.num * b.num, a.den * b.den⟩

/-- Absolute value of a fraction. -/
def Q.abs (a : Q) : Q := ⟨a.num.natAbs, a.den⟩

/-- Strict comparison of fractions by cross multiplication. -/
def Q.blt (a b : Q) : Bool := a.num * b.den < b.num * a.den

/-- Clamp to zero from below (`Math.max(0, x)`). -/
def Q.max0 (a : Q) : Q := if a.num < 0 then ⟨0, 1⟩ else a

/-- QWERTY adjacency table from `util/keyboard.ts`. -/
def qwertyAdjacency (c : Char) : Option Str :=
  match c with
  | 'q' => some "wa".toList
  | 'w' => some "qeasd".toList
  | 'e' => some "wrsdf".toList
  | 'r' => some "etdfg".toList
  | 't' => some "ryfgh".toList
  | 'y' => some "tughj".toList
  | 'u' => some "yihjk".toList
  | 'i' => some "uojkl".toList
  | 'o' => some "ipkl".toList
  | 'p' => some "ol".toList
  | 'a' => some "qwsz".toList
  | 's' => some "awedxz".toList
  | 'd' => some "serfcx".toList
  | 'f' => some "drtgvc".toList
  | 'g' => some "ftyhbv".toList
  | 'h' => some "gyujnb".toList
  | 'j' => some "huikmn".toList
  | 'k' => some "jiolm".toList
  | 'l' => some "kop".toList
  | 'z' => some "asx".toList
  | 'x' => some "zsdc".toList
  | 'c' => some "xdfv".toList
  | 'v' => some "cfgb".toList
  | 'b' => some "vghn".toList
  | 'n' => some "bhjm".toList
  | 'm' => some "njk".toList
  | _ => none

/-- ABNT2 accent extension table from `util/keyboard.ts`. -/
def abnt2Extensions (c : Char) : Option Str :=
  match c with
  | 'ç' => some "lk".toList
  | 'á' => some "a".toList
  | 'à' => some "a".toList
  | 'ã' => some "a".toList
  | 'â' => some "a".toList
  | 'é' => some "e".toList
  | 'ê' => some "e".toList
  | 'í' => some "i".toList
  | 'ó' => some "o".toList
  | 'ô' => some "o".toList
  | 'õ' => some "o".toList
  | 'ú' => some "u".toList
  | 'ü' => some "u".toList
  | _ => none

/-- Adjacent-key lookup from `util/keyboard.ts` `getAdjacentKeys`. -/
def getAdjacentKeys (c : Char) : Str :=
  let lower := lcChar c
  match qwertyAdjacency lower with
  | some s => s
  | none =>
    match abnt2Extensions lower with
    | some s => s
    | none => []

/-- Key distance from `util/keyboard.ts` `keyboardDistance`: 0 for the
same key, 1 for adjacent keys, 2 otherwise. -/
def keyboardDistance (c1 c2 : Char) : Nat :=
  let l1 := lcChar c1
  let l2 := lcChar c2
  if l1 = l2 then 0
  else if (getAdjacentKeys l1).contains l2 then 1
  else 2

/-- Keyboard-typo likelihood from `util/keyboard.ts`
`calculateKeyboardScore`, over exact fractions. -/
def calculateKeyboardScore (original suggestion : Str) : Q :=
  let l1 := lcStr original
  let l2 := lcStr suggestion
  let lenDiff : Nat := max l1.length l2.length - min l1.length l2.length
  if 2 < lenDiff then qq 0 1
  else
    let minLen := min l1.length l2.length
    let total : Nat :=
      (List.range minLen).foldl
        (fun acc i =>
          let a := l1.getD i ' '
          let b := l2.getD i ' '
          if a ≠ b then
            acc + (if keyboardDistance a b = 1 then 1 else 2)
          else acc)
        0
    let total := total + lenDiff
    if minLen = 0 then qq 1 1
    else
      let maxPossible : Nat := minLen * 2 + 2
      Q.max0 ((qq 1 1).sub (qq total maxPossible))

/-- Adjacency-based replacement candidates from `util/keyboard.ts`
`generateKeyboardEdits` (works on the lowercased word). -/
def generateKeyboardEdits (word : Str) : List Str :=
  let lower := lcStr word
  (List.range lower.length).foldl
    (fun acc i =>
      let before := lower.take i
      let after := lower.drop (i + 1)
      acc ++ (getAdjacentKeys (lower.getD i ' ')).map
        (fun adj => before ++ [adj] ++ after))
    []

/-- Adjacent-transposition candidates from `util/keyboard.ts`
`generateSwapEdits` (works on the lowercased word). -/
def generateSwapEdits (word : Str) : List Str :=
  let lower := lcStr word
  if lower.length = 0 then []
  else
    (List.range (lower.length - 1)).map
      (fun i =>
        lower.take i ++ [lower.getD (i + 1) ' ', lower.getD i ' '] ++
          lower.drop (i + 2))

/-- Letter-to-digit table of the Soundex algorithm in
`util/phonetics.ts`. -/
def soundexCode (c : Char) : Option Char :=
  match c with
  | 'B' => some '1' | 'F' => some '1' | 'P' => some '1' | 'V' => some '1'
  | 'C' => some '2' | 'G' => some '2' | 'J' => some '2' | 'K' => some '2'
  | 'Q' => some '2' | 'S' => some '2' | 'X' => some '2' | 'Z' => some '2'
  | 'D' => some '3' | 'T' => some '3'
  | 'L' => some '4'
  | 'M' => some '5' | 'N' => some '5'
  | 'R' => some '6'
  | _ => none

/-- Scan loop of `soundex`: build up to four output characters, resetting
the previous code at vowels and the silent letters. -/
def soundexLoop (u : Str) : Nat → Nat → Str → Option Char → Str
  | 0, _, result, _ => result
  | fuel + 1, i, result, prevCode =>
    if i < u.length ∧ result.length < 4 then
      let c := u.getD i ' '
      let code := soundexCode c
      match code with
      | some cd =>
        if some cd ≠ prevCode then
          soundexLoop u fuel (i + 1) (result ++ [cd]) (some cd)
        else
          soundexLoop u fuel (i + 1) result prevCode
      | none =>
        soundexLoop u fuel (i + 1) result none
    else result

/-- Soundex encoding from `util/phonetics.ts` `soundex`.  The loop fuel
is the word length, enough for the index walk that advances by one each
step. -/
def soundex (word : Str) : Str :=
  match ucStr word with
  | [] => []
  | firstLetter :: rest =>
    let result := soundexLoop (firstLetter :: rest) (rest.length + 1) 1
      [firstLetter] (soundexCode firstLetter)
    (result ++ ['0', '0', '0']).take 4

/-- Character-set test of the double-metaphone encoder (false for an
absent character, matching the empty-string lookups of the source). -/
def dmIn (c : Option Char) (s : String) : Bool :=
  match c with
  | some x => (s.toList).contains x
  | none => false

/-- Vowel test of the double-metaphone encoder (false for an absent
character, matching the empty-string lookups of the source). -/
def dmIsVowel (c : Option Char) : Bool :=
  match c with
  | some x => ("AEIOU".toList).contains x
  | none => false

/-- Bounds-checked character access of the double-metaphone encoder. -/
def dmCharAt (u : Str) (pos : Int) : Option Char :=
  if h : 0 ≤ pos ∧ pos < (u.length : Int) then u.get? pos.toNat else none

/-- Main scan of `util/phonetics.ts` `doubleMetaphone`: a cursor walk
over the uppercased word appending to a primary and a secondary code;
every branch advances the cursor by one to three positions. -/
def dmLoop (u : Str) : Nat → Nat → Str → Str → Str × Str
  | 0, _, primary, secondary => (primary, secondary)
  | fuel + 1, current, primary, secondary =>
    if current < u.length then
    let c := u.getD current ' '
    let n1 := dmCharAt u ((current : Int) + 1)
    let n2 := dmCharAt u ((current : Int) + 2)
    match c with
    | 'A' | 'E' | 'I' | 'O' | 'U' =>
      if current = 0 then
        dmLoop u fuel (current + 1) (primary ++ ['A']) (secondary ++ ['A'])
      else
        dmLoop u fuel (current + 1) primary secondary
    | 'B' =>
      dmLoop u fuel (current + (if n1 = some 'B' then 2 else 1))
        (primary ++ ['P']) (secondary ++ ['P'])
    | 'C' =>
      if n1 = some 'H' then
        dmLoop u fuel (current + 2) (primary ++ ['X']) (secondary ++ ['X'])
      else if n1 = some 'I' ∨ n1 = some 'E' then
        dmLoop u fuel (current + 1) (primary ++ ['S']) (secondary ++ ['S'])
      else if n1 = some 'K' then
        dmLoop u fuel (current + 2) (primary ++ ['K']) (secondary ++ ['K'])
      else
        dmLoop u fuel (current + 1) (primary ++ ['K']) (secondary ++ ['K'])
    | 'D' =>
      if n1 = some 'G' then
        if dmIn n2 "IEY" then
          dmLoop u fuel (current + 3) (primary ++ ['J']) (secondary ++ ['J'])
        else
          dmLoop u fuel (current + 2) (primary ++ ['T', 'K']) (secondary ++ ['T', 'K'])
      else
        dmLoop u fuel (current + 1) (primary ++ ['T']) (secondary ++ ['T'])
    | 'F' =>
      dmLoop u fuel (current + (if n1 = some 'F' then 2 else 1))
        (primary ++ ['F']) (secondary ++ ['F'])
    | 'G' =>
      if n1 = some 'H' then
        if 0 < current ∧ !dmIsVowel (dmCharAt u ((current : Int) - 1)) then
          dmLoop u fuel (current + 2) (primary ++ ['K']) (secondary ++ ['K'])
        else
          dmLoop u fuel (current + 2) primary secondary
      else if n1 = some 'N' then
        dmLoop u fuel (current + 2) primary secondary
      else if dmIn n1 "IEY" then
        dmLoop u fuel (current + 2) (primary ++ ['J']) (secondary ++ ['K'])
      else
        dmLoop u fuel (current + 1) (primary ++ ['K']) (secondary ++ ['K'])
    | 'H' =>
      if current = 0 ∨ dmIsVowel (dmCharAt u ((current : Int) - 1)) then
        if dmIsVowel n1 then
          dmLoop u fuel (current + 1) (primary ++ ['H']) (secondary ++ ['H'])
        else
          dmLoop u fuel (current + 1) primary secondary
      else
        dmLoop u fuel (current + 1) primary secondary
    | 'J' =>
      dmLoop u fuel (current + 1) (primary ++ ['J']) (secondary ++ ['J'])
    | 'K' =>
      dmLoop u fuel (current + (if n1 = some 'K' then 2 else 1))
        (primary ++ ['K']) (secondary ++ ['K'])
    | 'L' =>
      dmLoop u fuel (current + (if n1 = some 'L' then 2 else 1))
        (primary ++ ['L']) (secondary ++ ['L'])
    | 'M' =>
      dmLoop u fuel (current + (if n1 = some 'M' then 2 else 1))
        (primary ++ ['M']) (secondary ++ ['M'])
    | 'N' =>
      dmLoop u fuel (current + (if n1 = some 'N' then 2 else 1))
        (primary ++ ['N']) (secondary ++ ['N'])
    | 'Ñ' =>
      dmLoop u fuel (current + 1) (primary ++ ['N']) (secondary ++ ['N'])
    | 'P' =>
      if n1 = some 'H' then
        dmLoop u fuel (current + 2) (primary ++ ['F']) (secondary ++ ['F'])
      else
        dmLoop u fuel (current + (if n1 = some 'P' then 2 else 1))
          (primary ++ ['P']) (secondary ++ ['P'])
    | 'Q' =>
      dmLoop u fuel (current + (if n1 = some 'U' then 2 else 1))
        (primary ++ ['K']) (secondary ++ ['K'])
    | 'R' =>
      dmLoop u fuel (current + (if n1 = some 'R' then 2 else 1))
        (primary ++ ['R']) (secondary ++ ['R'])
    | 'S' =>
      if n1 = some 'H' then
        dmLoop u fuel (current + 2) (primary ++ ['X']) (secondary ++ ['X'])
      else if n1 = some 'I' ∧ dmIn n2 "OA" then
        dmLoop u fuel (current + 3) (primary ++ ['S']) (secondary ++ ['X'])
      else
        dmLoop u fuel (current + (if n1 = some 'S' then 2 else 1))
          (primary ++ ['S']) (secondary ++ ['S'])
    | 'T' =>
      if n1 = some 'H' then
        dmLoop u fuel (current + 2) (primary ++ ['0']) (secondary ++ ['T'])
      else if n1 = some 'I' ∧ dmIn n2 "OA" then
        dmLoop u fuel (current + 3) (primary ++ ['X']) (secondary ++ ['X'])
      else
        dmLoop u fuel (current + (if n1 = some 'T' then 2 else 1))
          (primary ++ ['T']) (secondary ++ ['T'])
    | 'V' =>
      dmLoop u fuel (current + 1) (primary ++ ['F']) (secondary ++ ['F'])
    | 'W' =>
      if dmIsVowel n1 then
        dmLoop u fuel (current + 1) (primary ++ ['A']) (secondary ++ ['F'])
      else
        dmLoop u fuel (current + 1) primary secondary
    | 'X' =>
      dmLoop u fuel (current + 1) (primary ++ ['K', 'S']) (secondary ++ ['K', 'S'])
    | 'Y' =>
      if dmIsVowel n1 then
        dmLoop u fuel (current + 1) (primary ++ ['A']) (secondary ++ ['A'])
      else
        dmLoop u fuel (current + 1) primary secondary
    | 'Z' =>
      dmLoop u fuel (current + (if n1 = some 'Z' then 2 else 1))
        (primary ++ ['S']) (secondary ++ ['S'])
    | _ =>
      dmLoop u fuel (current + 1) primary secondary
    else (primary, secondary)

/-- Double-metaphone encoding from `util/phonetics.ts` `doubleMetaphone`:
silent initial digraphs skip the first letter, and an initial X is coded
as S. -/
def doubleMetaphone (word : Str) : Str × Str :=
  if word = [] then ([], [])
  else
    let u := ucStr word
    let current0 :=
      if ["GN", "KN", "PN", "WR", "PS"].any
          (fun p => p.toList.isPrefixOf u) then 1 else 0
    if dmCharAt u 0 = some 'X' then
      dmLoop u u.length 1 ['S'] ['S']
    else
      dmLoop u u.length current0 [] []

/-- Phonetic similarity from `util/phonetics.ts` `phoneticSimilarity`:
double metaphone exact and cross matches first, then Soundex equality,
then positionwise Soundex overlap scaled to half weight. -/
def phoneticSimilarity (word1 word2 : Str) : Q :=
  let dm1 := doubleMetaphone word1
  let dm2 := doubleMetaphone word2
  if dm1.1 = dm2.1 then qq 1 1
  else if dm1.1 = dm2.2 ∨ dm1.2 = dm2.1 then qq 9 10
  else if dm1.2 = dm2.2 ∧ dm1.2 ≠ [] then qq 8 10
  else
    let sx1 := soundex word1
    let sx2 := soundex word2
    if sx1 = sx2 then qq 7 10
    else
      let overlap : Nat :=
        (List.range 4).countP (fun i => sx1.get? i = sx2.get? i)
      (qq overlap 4).mul (qq 1 2)

/-- Scoring weights from `util/weights.ts` (the `en` entry, selected by
the default language code of `suggest`). -/
structure ScoringWeights : Type where
  editDistance : Q
  ngram : Q
  phonetic : Q
  frequency : Q
  keyboard : Q

/-- English weight configuration from `LANGUAGE_WEIGHTS`. -/
def enWeights : ScoringWeights :=
  ⟨qq 3 10, qq 1 4, qq 1 4, qq 1 10, qq 1 10⟩

/-- Common-prefix length from `util/suggest.ts` `commonPrefixLength`
(case-insensitive). -/
def commonPrefixLength (a b : Str) : Nat :=
  let l1 := lcStr a
  let l2 := lcStr b
  ((l1.zip l2).takeWhile (fun pr => pr.1 = pr.2)).length

/-- Approximate edit-distance score from `util/suggest.ts`
`editDistanceScore`. -/
def editDistanceScore (word1 word2 : Str) : Q :=
  let len1 := word1.length
  let len2 := word2.length
  let maxLen := max len1 len2
  if maxLen = 0 then qq 1 1
  else
    let prefLen := commonPrefixLength word1 word2
    let lengthDiff := max len1 len2 - min len1 len2
    ((qq prefLen maxLen).mul (qq 3 5)).add
      (((qq 1 1).sub (qq lengthDiff maxLen)).mul (qq 2 5))

/-- Bigram set from `util/suggest.ts` `generateNgrams`, as a duplicate-free
list (only size and membership of the JavaScript `Set` are consumed). -/
def generateNgrams (word : Str) (n : Nat) : List Str :=
  let lower := lcStr word
  if lower.length < n then []
  else
    (List.range (lower.length - n + 1)).foldl
      (fun acc i =>
        let g := (lower.drop i).take n
        if acc.contains g then acc else acc ++ [g])
      []

/-- Dice-coefficient bigram similarity from `util/suggest.ts`
`ngramSimilarity`. -/
def ngramSimilarity (word1 word2 : Str) : Q :=
  let ng1 := generateNgrams word1 2
  let ng2 := generateNgrams word2 2
  if ng1.length = 0 ∨ ng2.length = 0 then qq 0 1
  else
    let inter : Nat := ng1.countP (fun g => ng2.contains g)
    qq (2 * inter) (ng1.length + ng2.length)

/-- Modelled from the spec: the word-frequency scorer `getFrequencyScore`
is imported from a `frequency` module that is absent from the sources,
and the specification's ranking has no frequency component, so the model
assigns every word the neutral score zero. -/
def getFrequencyScore (_word : Str) (_langCode : Str) : Q := qq 0 1

/-- Weighted aggregation from `util/weights.ts` `calculateWeightedScore`. -/
def calculateWeightedScore (ed ng ph fr kb : Q) (w : ScoringWeights) : Q :=
  ((((ed.mul w.editDistance).add (ng.mul w.ngram)).add
    (ph.mul w.phonetic)).add (fr.mul w.frequency)).add (kb.mul w.keyboard)

/-- NOSUGGEST test from `util/suggest.ts` `hasNoSuggestFlag`. -/
def hasNoSuggestFlag (d : DAWG) (fl : AffixFlags) (word : Str) : Bool :=
  match fl.NOSUGGEST with
  | none => false
  | some ns =>
    if ns = [] then false
    else
      match d.getFlags word with
      | some fs => fs.contains ns
      | none => false

/-- Candidate validity computed by both validation loops of `suggest`: a
dictionary hit on the candidate or on its lowercasing, free of the
NOSUGGEST flag. -/
def suggestValidB (d : DAWG) (fl : AffixFlags) (cand : Str) : Bool :=
  if d.has cand then !hasNoSuggestFlag d fl cand
  else
    let lower := lcStr cand
    if lower ≠ cand ∧ d.has lower then !hasNoSuggestFlag d fl lower
    else false

/-- Insertion-ordered set append used to embed the JavaScript
`Set.prototype.add` of `memory.candidates`. -/
def addSet (l : List Str) (x : Str) : List Str :=
  if l.contains x then l else l ++ [x]

/-- Working state of the suggestion engine: the candidate memo map, the
insertion-ordered valid-candidate set, the valid-candidate list whose
length drives the fallback control flow, and the accumulated
edit-distance-1 work list.  The two push-only lists are stored reversed
(new entries at the head) so that a push costs one cell; the `valid` and
`ed1` accessors below recover the source-order lists. -/
structure SugState : Type where
  state : StMap
  candidates : List Str
  validRev : List Str
  ed1Rev : List Str

/-- Valid-candidate list in push order. -/
def SugState.valid (st : SugState) : List Str := st.validRev.reverse

/-- Edit-distance-1 list in push order. -/
def SugState.ed1 (st : SugState) : List Str := st.ed1Rev.reverse

/-- Left fold over suggestion states that pattern-matches each
intermediate state, keeping reduction iterative when the definitions are
evaluated; it computes exactly `List.foldl f`. -/
def foldSt (f : SugState → α → SugState) : SugState → List α → SugState
  | st, [] => st
  | st, v :: rest =>
    match f st v with
    | .mk a b c d => foldSt f ⟨a, b, c, d⟩ rest

/-- Validation step of the raw-candidate loop in `suggest`: memoised
candidates are re-admitted to the candidate set when valid, fresh ones
are evaluated and recorded. -/
def validateCand (d : DAWG) (fl : AffixFlags) (st : SugState) (cand : Str) :
    SugState :=
  match st.state.find cand with
  | some b =>
    if b then { st with candidates := addSet st.candidates cand } else st
  | none =>
    let isValid := suggestValidB d fl cand
    if isValid then
      { st with
        state := st.state.insert cand isValid
        candidates := addSet st.candidates cand
        validRev := cand :: st.validRev }
    else
      { st with state := st.state.insert cand isValid }

/-- Step of the `checkAndAdd` closure in `suggest`: like the raw loop but
every fresh value is also pushed onto the edit-distance-1 list before
validation. -/
def checkAndAdd (d : DAWG) (fl : AffixFlags) (st : SugState) (v : Str) :
    SugState :=
  match st.state.find v with
  | some b =>
    if b then { st with candidates := addSet st.candidates v } else st
  | none =>
    let isValid := suggestValidB d fl v
    if isValid then
      { st with
        state := st.state.insert v isValid
        candidates := addSet st.candidates v
        validRev := v :: st.validRev
        ed1Rev := v :: st.ed1Rev }
    else
      { st with
        state := st.state.insert v isValid
        ed1Rev := v :: st.ed1Rev }

/-- Strategy 1 of `suggest`: replacement-table rewrites at every
occurrence offset of each table source (the `indexOf` walk visits every,
possibly overlapping, occurrence). -/
def strategyRep (table : List (Str × Str)) (normalized : Str) : List Str :=
  table.foldl
    (fun acc pr =>
      acc ++ (List.range (normalized.length + 1)).filterMap
        (fun i =>
          if pr.1 ≠ [] ∧ pr.1.isPrefixOf (normalized.drop i) then
            some (normalized.take i ++ pr.2 ++ normalized.drop (i + pr.1.length))
          else none))
    []

/-- Uppercase test on a character used throughout the engine (the
JavaScript `c !== c.toLowerCase()` idiom). -/
def isUpChar (c : Char) : Bool := lcChar c ≠ c

/-- Strategy 2 of `suggest`: affix `KEY` group neighbours substituted at
every position, deduplicated per position, case restored from the
original character. -/
def strategyKey (fl : AffixFlags) (normalized : Str) : List Str :=
  (List.range normalized.length).foldl
    (fun acc i =>
      let character := normalized.getD i ' '
      let before := normalized.take i
      let after := normalized.drop (i + 1)
      let insensitive := lcChar character
      let upper := insensitive ≠ character
      (fl.KEY.foldl
        (fun (pr : List Str × List Char) group =>
          match group.findIdx? (fun g => g = insensitive) with
          | none => pr
          | some position =>
            (List.range group.length).foldl
              (fun (pr2 : List Str × List Char) j =>
                if j = position then pr2
                else
                  let other := group.getD j ' '
                  if pr2.2.contains other then pr2
                  else
                    let otherOut := if upper then ucChar other else other
                    (pr2.1 ++ [before ++ [otherOut] ++ after], pr2.2 ++ [other]))
              pr)
        (acc, [])).1)
    []

/-- Strategy 4 of `suggest`: `MAP` equivalence-group lookups
(`getMapEquivalents`), lowercased, with case restored per position. -/
def getMapEquivalents (c : Char) (mapGroups : List Str) : List Char :=
  let lower := lcChar c
  mapGroups.foldl
    (fun acc group =>
      if (lcStr group).contains lower then
        acc ++ group.filterMap
          (fun g => if lcChar g ≠ lower then some (lcChar g) else none)
      else acc)
    []

/-- Strategy 4 candidate list of `suggest`. -/
def strategyMap (fl : AffixFlags) (normalized : Str) : List Str :=
  if fl.MAP.isEmpty then []
  else
    (List.range normalized.length).foldl
      (fun acc i =>
        let character := normalized.getD i ' '
        let before := normalized.take i
        let after := normalized.drop (i + 1)
        let lower := lcChar character
        let upper := lower ≠ character
        acc ++ (getMapEquivalents character fl.MAP).map
          (fun v => before ++ [if upper then ucChar v else v] ++ after))
      []

/-- Strategy 5 of `suggest`: the growing doubled/missing-character value
list, with its growth cut off after three generations. -/
def strategyDouble (normalized : Str) : List Str :=
  ((List.range normalized.length).foldl
    (fun (stt : List Str × Nat × Nat) i =>
      let values := stt.1
      let mx := stt.2.1
      let distance := stt.2.2
      let character := normalized.getD i ' '
      let nextCharacter? := normalized.get? (i + 1)
      let repl : Str :=
        if some character = nextCharacter? then [] else [character, character]
      let count := values.length
      let pushed := (List.range count).filterMap
        (fun j => if j ≤ mx then some ((values.getD j []) ++ repl) else none)
      let values2 := values.map (fun v => v ++ [character]) ++ pushed
      let distance2 := distance + 1
      let mx2 := if distance2 < 3 then values2.length else mx
      (values2, mx2, distance2))
    ([[]], 1, 0)).1

/-- Strategy 6 of `suggest`: the case-variant seed list for the
edit-distance-1 pass. -/
def valuesCase (normalized : Str) (currentCase : Option Casing) : List Str :=
  let lower := lcStr normalized
  let v1 : List Str :=
    if normalized = lower ∨ currentCase = none then
      [normalized, ucStr (normalized.take 1) ++ lower.drop 1]
    else [normalized]
  let upper := ucStr normalized
  if normalized ≠ upper then v1 ++ [upper] else v1

/-- Strategy 7 of `suggest`: stored words sharing a long lowercased
prefix with the input, for descending prefix lengths down to half the
input length. -/
def strategyPre (d : DAWG) (normalized : Str) : List Str :=
  let minPrefixLen := max 1 (normalized.length / 2)
  ((List.range normalized.length).reverse.filter
      (fun l => minPrefixLen ≤ l)).foldl
    (fun acc prefixLen =>
      acc ++ d.getPrefixMatches (lcStr (normalized.take prefixLen)) 20)
    []

/-- Raw candidate list of `suggest` in source push order: replacement
table, `KEY` neighbours, keyboard edits and swaps, `MAP` equivalents, the
doubled-character values, then the prefix matches. -/
def rawCandidates (cfg : NSpellCfg) (d : DAWG) (normalized : Str) : List Str :=
  strategyRep cfg.replacementTable normalized ++
    strategyKey cfg.flags normalized ++
    generateKeyboardEdits normalized ++ generateSwapEdits normalized ++
    strategyMap cfg.flags normalized ++
    strategyDouble normalized ++
    strategyPre d normalized

/-- Case toggle of the first character of a fragment (`switchCase` inside
`suggest`). -/
def switchCaseStr : Str → Str
  | [] => []
  | c :: rest => (if lcChar c = c then ucChar c else lcChar c) :: rest

/-- Uppercase state of the scanning cursor at a position: the `nextUpper`
variable of the source keeps its last value once the cursor passes the
end of the word. -/
def upperAt (word : Str) (p : Nat) : Bool :=
  match word.get? (min p (word.length - 1)) with
  | some c => isUpChar c
  | none => false

/-- Body of one cursor position of the edit-distance-1 pass: case
switches, removal, adjacent transposition, and `TRY`-alphabet insertions
and replacements with case-preserving variants. -/
def ed1Step (d : DAWG) (fl : AffixFlags) (wordCase : Option Casing)
    (word : Str) (st : SugState) (p : Nat) : SugState :=
  let before := word.take p
  let after := word.drop p
  let nextAfter := word.drop (p + 1)
  let nextNextAfter := word.drop (p + 2)
  let upper := upperAt word p
  let nextUp :=
    match word.get? (p + 1) with
    | some c => isUpChar c
    | none => false
  let st :=
    if nextAfter ≠ [] ∧ upper ≠ nextUp then
      let st := checkAndAdd d fl st (before ++ switchCaseStr nextAfter)
      checkAndAdd d fl st
        (before ++ switchCaseStr ((word.drop (p + 1)).take 1) ++
          switchCaseStr ((word.drop p).take 1) ++ nextNextAfter)
    else st
  let st := checkAndAdd d fl st (before ++ nextAfter)
  let st :=
    if nextAfter ≠ [] then
      checkAndAdd d fl st
        (before ++ (word.drop (p + 1)).take 1 ++ (word.drop p).take 1 ++
          nextNextAfter)
    else st
  foldSt
    (fun st inject =>
      let injectUpper := ucChar inject
      if upper ∧ inject ≠ injectUpper then
        let st :=
          if wordCase ≠ some .lower then
            let st := checkAndAdd d fl st (before ++ [inject] ++ after)
            checkAndAdd d fl st (before ++ [inject] ++ nextAfter)
          else st
        let st := checkAndAdd d fl st (before ++ [injectUpper] ++ after)
        checkAndAdd d fl st (before ++ [injectUpper] ++ nextAfter)
      else
        let st := checkAndAdd d fl st (before ++ [inject] ++ after)
        checkAndAdd d fl st (before ++ [inject] ++ nextAfter))
    st fl.TRY

/-- Edit-distance-1 pass over one seed word. -/
def ed1Word (d : DAWG) (fl : AffixFlags) (st : SugState) (word : Str) :
    SugState :=
  let wordCase := detectCasing word
  foldSt (ed1Step d fl wordCase word) st (List.range (word.length + 1))

/-- State after the candidate strategies and the edit-distance-1 pass:
everything before the edit-distance-2 fallback of `suggest`. -/
def phase1 (cfg : NSpellCfg) (d : DAWG) (normalized : Str) : SugState :=
  let st0 : SugState := ⟨StMap.empty, [], [], []⟩
  let st1 := foldSt (validateCand d cfg.flags) st0 (rawCandidates cfg d normalized)
  foldSt (ed1Word d cfg.flags) st1
    (valuesCase normalized (detectCasing normalized))

/-- Batch size of the edit-distance-2 fallback. -/
def ed2BatchSize (normalized : Str) : Nat :=
  max ((10 - normalized.length) ^ 3) 1

/-- Iteration cap of the edit-distance-2 fallback, computed from the
edit-distance-1 list length at loop entry. -/
def ed2MaxIter (st : SugState) (normalized : Str) : Nat :=
  min st.ed1Rev.length ((max (15 - normalized.length) 3) ^ 3)

/-- Deletion pass of one edit-distance-2 batch: the batch is a snapshot
slice of the edit-distance-1 list, while `checkAndAdd` keeps appending to
the live list. -/
def processBatch (d : DAWG) (fl : AffixFlags) (st : SugState)
    (previous next : Nat) : SugState :=
  let batch := (st.ed1.drop previous).take (next - previous)
  foldSt
    (fun st word =>
      foldSt
        (fun st i => checkAndAdd d fl st (word.take i ++ word.drop (i + 1)))
        st (List.range word.length))
    st batch

/-- Batch loop of the edit-distance-2 fallback: run while fewer than ten
valid candidates exist and the cursor is under the iteration cap, and
break once a batch brings the valid count to five.  The fuel argument
makes the loop bound explicit; since the batch size is at least one, a
fuel equal to the iteration cap is never exhausted before the cap
itself. -/
def ed2Loop (d : DAWG) (fl : AffixFlags) (batchSize maxIter : Nat) :
    Nat → SugState → Nat → SugState
  | 0, st, _ => st
  | fuel + 1, st, previous =>
    if st.validRev.length < 10 ∧ previous < maxIter then
      let next := previous + batchSize
      let st2 := processBatch d fl st previous next
      if 5 ≤ st2.validRev.length then st2
      else ed2Loop d fl batchSize maxIter fuel st2 next
    else st

/-- Edit-distance-2 fallback of `suggest`: entered only when the earlier
passes left fewer than five valid candidates. -/
def suggestBatches (cfg : NSpellCfg) (normalized : Str) (d : DAWG)
    (st : SugState) : SugState :=
  if st.validRev.length < 5 then
    let maxIter := ed2MaxIter st normalized
    ed2Loop d cfg.flags (ed2BatchSize normalized) maxIter maxIter st 0
  else st

/-- Aggregated candidate score from the scoring block of `suggest` with
the weights of the default language code. -/
def finalScoreOf (normalized word : Str) : Q :=
  calculateWeightedScore
    (editDistanceScore normalized word)
    (ngramSimilarity normalized word)
    (phoneticSimilarity normalized word)
    (getFrequencyScore word ['e', 'n'])
    (calculateKeyboardScore normalized word)
    enWeights

/-- Code-point lexicographic comparison standing in for
`String.prototype.localeCompare`; the locale-aware collation of the
runtime is not part of the sources, and no settled claim depends on the
relative order of two candidates that reach this final tie-breaker with
different letters. -/
def lexCmp : Str → Str → Ordering
  | [], [] => .eq
  | [], _ :: _ => .lt
  | _ :: _, [] => .gt
  | a :: xs, b :: ys =>
    match compare a b with
    | .eq => lexCmp xs ys
    | o => o

/-- Comparator of the ranking sort in `suggest`: score difference beyond
the 0.01 threshold, then length difference, then casing match with the
input, then alphabetical. -/
def suggCmp (normalized : Str) (currentCase : Option Casing)
    (a b : Str × Q) : Ordering :=
  let diff := a.2.sub b.2
  if Q.blt (qq 1 100) diff.abs then (if Q.blt b.2 a.2 then .lt else .gt)
  else
    let lenDiffA := max a.1.length normalized.length - min a.1.length normalized.length
    let lenDiffB := max b.1.length normalized.length - min b.1.length normalized.length
    if lenDiffA ≠ lenDiffB then compare lenDiffA lenDiffB
    else
      let casingA := detectCasing a.1
      let casingB := detectCasing b.1
      if casingA = currentCase ∧ casingB ≠ currentCase then .lt
      else if casingB = currentCase ∧ casingA ≠ currentCase then .gt
      else lexCmp a.1 b.1

/-- Stable insertion of one element into a comparator-sorted list: the
element is placed before the first entry it does not strictly follow,
preserving encounter order among ties as the runtime's stable sort
does. -/
def insertByCmp (cmp : α → α → Ordering) (x : α) : List α → List α
  | [] => [x]
  | y :: ys => if cmp x y = .gt then y :: insertByCmp cmp x ys else x :: y :: ys

/-- Stable comparator sort modelling `Array.prototype.sort`. -/
def sortByCmp (cmp : α → α → Ordering) (l : List α) : List α :=
  l.foldr (insertByCmp cmp) []

/-- Output pass of `suggest`: denormalize each ranked word, drop
case-insensitive duplicates keeping the first occurrence, stop at ten. -/
def outputLoop (convOut : List (Str × Str)) :
    List (Str × Q) → List Str → List Str → List Str
  | [], _, acc => acc
  | w :: rest, seen, acc =>
    let out := denormalize convOut w.1
    let lower := lcStr out
    if seen.contains lower then outputLoop convOut rest seen acc
    else
      let acc2 := acc ++ [out]
      if 10 ≤ acc2.length then acc2
      else outputLoop convOut rest (seen ++ [lower]) acc2

/-- Suggestion engine from `util/suggest.ts` `suggest`, with the
instance's validity predicate passed in as in the source signature. -/
def suggest (cfg : NSpellCfg) (d : DAWG) (correctFn : Str → Bool)
    (value : Str) : List Str :=
  let normalized := normalize cfg.convIn (trimStr value)
  if normalized = [] ∨ correctFn normalized then []
  else
    let currentCase := detectCasing normalized
    let st := suggestBatches cfg normalized d (phase1 cfg d normalized)
    let scored := st.candidates.map (fun w => (w, finalScoreOf normalized w))
    let sorted := sortByCmp (suggCmp normalized currentCase) scored
    outputLoop cfg.convOut sorted [] []

/-- Facade method `NSpell.correct` on an instance state. -/
def correctTop (cfg : NSpellCfg) (st : NSpellState) (word : Str) : Bool :=
  correct cfg.flags cfg.convIn cfg.compoundRules st.dawg word

/-- Facade method `NSpell.spell` on an instance state. -/
def spellTop (cfg : NSpellCfg) (st : NSpellState) (word : Str) : SpellResult :=
  spell cfg.flags cfg.convIn cfg.compoundRules st.dawg word

/-- Facade method `NSpell.suggest` on an instance state: the validity
callback is the instance's own `correct`. -/
def suggestTop (cfg : NSpellCfg) (st : NSpellState) (value : Str) : List Str :=
  suggest cfg st.dawg (fun w => correctTop cfg st w) value

/-- Invariant of the suggestion-engine state: every kept candidate
passes the engine's validity test, and the memo map records exactly the
validity verdicts. -/
def SugInv (d : DAWG) (fl : AffixFlags) (st : SugState) : Prop :=
  (∀ w ∈ st.candidates, suggestValidB d fl w = true) ∧
    (∀ w b, st.state.find w = some b → b = suggestValidB d fl w)

/-! Concrete instances used by witnesses and counterexamples.  The
realistic configurations carry the full frequency-ordered `TRY` alphabet
that the affix parser always produces and a `KEY` group as produced by a
`KEY ab` directive; the tiny configuration used by some witnesses has
empty alphabets, which the theorems it instantiates allow. -/

/-- Frequency-ordered suggestion alphabet from the affix parser. -/
def tryAlphabet : List Char := "etaoinshrdlcumwfgypbvkjxqz".toList

/-- Configuration with a forbidden-word code, as produced by an affix
file declaring `KEY ab` and `FORBIDDENWORD F`. -/
def cfgA : NSpellCfg :=
  { flags :=
      { KEY := ["ab".toList]
        TRY := tryAlphabet
        FORBIDDENWORD := some ['F'] } }

/-- Dictionary holding only the forbidden word `AB`. -/
def dA : DAWG := DAWG.empty.add "AB".toList [['F']]

/-- Instance state for `cfgA`. -/
def stA : NSpellState := ⟨dA, []⟩

/-- Minimal configuration with empty alphabets, used to instantiate
universally quantified theorems cheaply. -/
def cfgT : NSpellCfg := { flags := {} }

/-- Dictionary holding only the word `bb`. -/
def dT : DAWG := DAWG.empty.add "bb".toList []

/-- Instance state for `cfgT`. -/
def stT : NSpellState := ⟨dT, []⟩

/-- Configuration with the replacement pair `A → ZZZ` and a suggestion
alphabet holding the letters its ranking scenario needs. -/
def cfgB : NSpellCfg :=
  { flags := { TRY := ['r', 'a', 't'] }
    replacementTable := [("A".toList, "ZZZ".toList)] }

/-- Dictionary holding `CZZZT` and `CART`. -/
def dB : DAWG := (DAWG.empty.add "CZZZT".toList []).add "CART".toList []

/-- Instance state for `cfgB`. -/
def stB : NSpellState := ⟨dB, []⟩

/-- Configuration of the specification scenario S4: replacement pairs
`ie → ei` and `ei → ie`, with a suggestion alphabet holding letters of
the scenario word. -/
def cfgS4 : NSpellCfg :=
  { flags := { TRY := ['e', 'i', 'v'] }
    replacementTable := [("ie".toList, "ei".toList), ("ei".toList, "ie".toList)] }

/-- Dictionary of scenario S4: only `receive`. -/
def dS4 : DAWG := DAWG.empty.add "receive".toList []

/-- Instance state for `cfgS4`. -/
def stS4 : NSpellState := ⟨dS4, []⟩

/-- Plain configuration used by the fallback-trigger counterexample. -/
def cfgC : NSpellCfg := { flags := { KEY := ["ab".toList], TRY := tryAlphabet } }

/-- Dictionary holding `AB` and `B`. -/
def dC : DAWG := (DAWG.empty.add "AB".toList []).add "B".toList []

/-- Instance state for `cfgC`. -/
def stC : NSpellState := ⟨dC, []⟩

/-- Configuration with the input conversion `AB → A`, which is not
idempotent on `ABB`. -/
def cfgD : NSpellCfg :=
  { flags := { KEY := ["ab".toList], TRY := tryAlphabet }
    convIn := [("AB".toList, "A".toList)] }

/-- Dictionary holding only `AB`. -/
def dD : DAWG := DAWG.empty.add "AB".toList []

/-- Instance state for `cfgD`. -/
def stD : NSpellState := ⟨dD, []⟩

/-- Configuration declaring only a forbidden-word code. -/
def cfgE : NSpellCfg := { flags := { FORBIDDENWORD := some ['F'] } }

/-- Dictionary holding only `hello`. -/
def dE : DAWG := DAWG.empty.add "hello".toList []

/-- Instance state for `cfgE`. -/
def stE : NSpellState := ⟨dE, []⟩

/-- Flag settings declaring an only-in-compound code `O`. -/
def flO : AffixFlags := { ONLYINCOMPOUND := some ['O'] }

/-- Dictionary holding `ab` flagged only-in-compound. -/
def dO : DAWG := DAWG.empty.add "ab".toList [['O']]

/-- Flag settings with compound minimum two. -/
def flG : AffixFlags := { COMPOUNDMIN := 2 }

/-- Compiled compound matcher accepting exactly `abab`. -/
def rulesG : List (Str → Bool) := [fun w => w = "abab".toList]

/-- Word graph holding `ab` and then having it removed again: the branch
remains though no word is stored. -/
def d7 : DAWG := (DAWG.empty.add "ab".toList []).remove "ab".toList

/-- Replay of a list of `add` operations from the empty word graph. -/
def runAdds (adds : List (Str × List Str)) : DAWG :=
  adds.foldl (fun d pr => d.add pr.1 pr.2) DAWG.empty

/-! Child-list lemmas. -/

theorem Kids.find_set_self : (k : Kids) → (c : Char) → (t : Trie) →
    (k.set c t).find c = some t
  | .nil, c, t => by simp [Kids.set, Kids.find]
  | .cons k0 u rest, c, t => by
    by_cases h : k0 = c
    · simp [Kids.set, Kids.find, h]
    · simp [Kids.set, Kids.find, h, Kids.find_set_self rest c t]

theorem Kids.find_set_ne : (k : Kids) → (c c2 : Char) → (t : Trie) →
    c ≠ c2 → (k.set c t).find c2 = k.find c2
  | .nil, c, c2, t, h => by
    have h2 : ¬ (c = c2) := h
    simp [Kids.set, Kids.find, h2]
  | .cons k0 u rest, c, c2, t, h => by
    by_cases h0 : k0 = c
    · subst h0
      simp [Kids.set, Kids.find, h]
    · have hrec := Kids.find_set_ne rest c c2 t h
      by_cases h2 : k0 = c2
      · subst h2
        have hkc : ¬ (k0 = c) := h0
        simp [Kids.set, Kids.find, hkc, fun hh : k0 = c => h0 hh]
      · simp [Kids.set, Kids.find, h0, h2, hrec]

theorem countKids_set : (k : Kids) → (c : Char) → (t : Trie) →
    countKids (k.set c t) + countWords ((k.find c).getD Trie.empty) =
      countKids k + countWords t
  | .nil, c, t => by
    simp [Kids.set, Kids.find, countKids, countWords, Trie.empty]
  | .cons k0 u rest, c, t => by
    by_cases h : k0 = c
    · simp only [Kids.set, Kids.find, if_pos h, countKids, Option.getD_some]
      omega
    · simp only [Kids.set, Kids.find, if_neg h, countKids]
      have ih := countKids_set rest c t
      omega

theorem countKids_find_le : (k : Kids) → (c : Char) → (ch : Trie) →
    k.find c = some ch → countWords ch ≤ countKids k
  | .nil, _, _, h => by simp [Kids.find] at h
  | .cons k0 u rest, c, ch, h => by
    by_cases h0 : k0 = c
    · simp only [Kids.find, if_pos h0, Option.some.injEq] at h
      subst h
      simp only [countKids]
      omega
    · simp only [Kids.find, if_neg h0] at h
      have := countKids_find_le rest c ch h
      simp only [countKids]
      omega

/-! Equation lemmas for the trie walks. -/

theorem Trie.containsW_nil (e : Bool) (f : Option (List Str)) (kids : Kids) :
    (Trie.node e f kids).containsW [] = e := by
  simp [Trie.containsW, Trie.findNode, Trie.isEnd]

theorem Trie.containsW_cons (e : Bool) (f : Option (List Str)) (kids : Kids)
    (c : Char) (w : Str) :
    (Trie.node e f kids).containsW (c :: w) =
      (match kids.find c with
       | some ch => ch.containsW w
       | none => false) := by
  cases hf : kids.find c <;> simp [Trie.containsW, Trie.findNode, hf]

theorem Trie.getFlagsW_cons (e : Bool) (f : Option (List Str)) (kids : Kids)
    (c : Char) (w : Str) :
    (Trie.node e f kids).getFlagsW (c :: w) =
      (match kids.find c with
       | some ch => ch.getFlagsW w
       | none => none) := by
  cases hf : kids.find c <;> simp [Trie.getFlagsW, Trie.findNode, hf]

/-! Insertion-walk lemmas. -/

theorem Trie.containsW_empty (w : Str) : Trie.empty.containsW w = false := by
  cases w with
  | nil => rfl
  | cons c rest => rfl

theorem Trie.addGo_count : (t : Trie) → (w : Str) → (fl : List Str) →
    countWords (t.addGo w fl).1 =
      countWords t + (if (t.addGo w fl).2 then 1 else 0)
  | .node e f kids, [], fl => by
    cases e <;> simp [Trie.addGo, countWords] <;> omega
  | .node e f kids, c :: w, fl => by
    simp only [Trie.addGo, countWords]
    have hset := countKids_set kids c ((((kids.find c).getD Trie.empty)).addGo w fl).1
    have ih := Trie.addGo_count ((kids.find c).getD Trie.empty) w fl
    omega

theorem Trie.addGo_snd : (t : Trie) → (w : Str) → (fl : List Str) →
    (t.addGo w fl).2 = !t.containsW w
  | .node e f kids, [], fl => by
    simp [Trie.addGo, Trie.containsW_nil]
  | .node e f kids, c :: w, fl => by
    cases hf : kids.find c with
    | some child =>
      have ih := Trie.addGo_snd child w fl
      simp [Trie.addGo, Trie.containsW_cons, hf, ih]
    | none =>
      have ih := Trie.addGo_snd Trie.empty w fl
      simp [Trie.addGo, Trie.containsW_cons, hf, ih, Trie.containsW_empty]

theorem Trie.removeGo_count : (t : Trie) → (w : Str) →
    t.containsW w = true → countWords (t.removeGo w) + 1 = countWords t
  | .node e f kids, [], h => by
    rw [Trie.containsW_nil] at h
    simp [Trie.removeGo, countWords, h]
    omega
  | .node e f kids, c :: w, h => by
    rw [Trie.containsW_cons] at h
    cases hf : kids.find c with
    | some child =>
      rw [hf] at h
      have ih := Trie.removeGo_count child w h
      simp only [Trie.removeGo, hf, countWords]
      have hset := countKids_set kids c (child.removeGo w)
      rw [hf] at hset
      simp only [Option.getD_some] at hset
      omega
    | none =>
      rw [hf] at h
      simp at h

theorem Trie.containsW_pos : (t : Trie) → (w : Str) →
    t.containsW w = true → 0 < countWords t
  | .node e f kids, [], h => by
    rw [Trie.containsW_nil] at h
    simp [countWords, h]
  | .node e f kids, c :: w, h => by
    rw [Trie.containsW_cons] at h
    cases hf : kids.find c with
    | some child =>
      rw [hf] at h
      have ih := Trie.containsW_pos child w h
      have hle := countKids_find_le kids c child hf
      simp only [countWords]
      omega
    | none =>
      rw [hf] at h
      simp at h

/-! Size-invariant preservation. -/

theorem DAWG.size_add_inv (d : DAWG) (w : Str) (fl : List Str)
    (h : d.size = countWords d.root) :
    (d.add w fl).size = countWords (d.add w fl).root := by
  by_cases hw : w = []
  · simp [DAWG.add, hw, h]
  · simp only [DAWG.add, if_neg hw]
    have hc := Trie.addGo_count d.root w fl
    omega

theorem DAWG.size_remove_inv (d : DAWG) (w : Str)
    (h : d.size = countWords d.root) :
    (d.remove w).size = countWords (d.remove w).root := by
  by_cases hc : d.root.containsW w
  · simp only [DAWG.remove, if_pos hc]
    have h1 := Trie.removeGo_count d.root w hc
    have h2 := Trie.containsW_pos d.root w hc
    omega
  · simp [DAWG.remove, hc, h]

/-- Claim C5: after any sequence of `add` and `remove` operations on the
word graph, the `_size` counter reported by `getStats().words` equals the
number of end-of-word nodes, that is, the number of distinct words
currently marked terminal. -/
theorem c5_size_counts_terminals (ops : List DawgOp) :
    (runOps ops).size = countWords (runOps ops).root := by
  suffices h : ∀ (d : DAWG), d.size = countWords d.root →
      (ops.foldl DawgOp.run d).size = countWords (ops.foldl DawgOp.run d).root by
    exact h DAWG.empty rfl
  induction ops with
  | nil => intro d hd; simpa using hd
  | cons op rest ih =>
    intro d hd
    simp only [List.foldl_cons]
    apply ih
    cases op with
    | add w fl => exact DAWG.size_add_inv d w fl hd
    | remove w => exact DAWG.size_remove_inv d w hd

/-! Lemmas on the state of the inserted word itself. -/

theorem Trie.containsW_addGo_self : (t : Trie) → (w : Str) → (fl : List Str) →
    (t.addGo w fl).1.containsW w = true
  | .node e f kids, [], fl => by
    simp [Trie.addGo, Trie.containsW_nil]
  | .node e f kids, c :: w, fl => by
    have ih := Trie.containsW_addGo_self ((kids.find c).getD Trie.empty) w fl
    simp [Trie.addGo, Trie.containsW_cons, Kids.find_set_self, ih]

theorem Trie.getFlagsW_addGo_self : (t : Trie) → (w : Str) → (fl : List Str) →
    fl ≠ [] → (t.addGo w fl).1.getFlagsW w = some fl
  | .node e f kids, [], fl, h => by
    simp [Trie.addGo, Trie.getFlagsW, Trie.findNode, Trie.isEnd, Trie.flags, h]
  | .node e f kids, c :: w, fl, h => by
    have ih := Trie.getFlagsW_addGo_self ((kids.find c).getD Trie.empty) w fl h
    simp [Trie.addGo, Trie.getFlagsW_cons, Kids.find_set_self, ih]

/-- Claim C8 (amended): re-adding a word never changes the size counter,
and when the second flag list is non-empty it overrides the stored flag
list; an empty second flag list leaves the earlier flags in place, which
is the corrected part of the claim. -/
theorem c8_re_add_size_and_flags (d : DAWG) (w : Str) (F1 F2 : List Str)
    (hw : w ≠ []) (h2 : F2 ≠ []) :
    ((d.add w F1).add w F2).size = (d.add w F1).size ∧
      ((d.add w F1).add w F2).getFlags w = some F2 := by
  have hcontains : (d.add w F1).root.containsW w = true := by
    simp only [DAWG.add, if_neg hw]
    exact Trie.containsW_addGo_self d.root w F1
  generalize hd1 : d.add w F1 = d1 at hcontains ⊢
  constructor
  · simp only [DAWG.add, if_neg hw]
    have hsnd := Trie.addGo_snd d1.root w F2
    rw [hcontains] at hsnd
    simp [hsnd]
  · simp only [DAWG.add, DAWG.getFlags, if_neg hw]
    exact Trie.getFlagsW_addGo_self d1.root w F2 h2

/-- Claim C8, counterexample to the claim as stated: adding `a` with flag
list `[A]` and re-adding it with the empty flag list leaves the earlier
flags in place instead of storing the empty list. -/
theorem c8_counterexample :
    ((DAWG.empty.add ['a'] [['A']]).add ['a'] []).getFlags ['a'] =
        some [['A']] ∧
      ((DAWG.empty.add ['a'] [['A']]).add ['a'] []).getFlags ['a'] ≠
        some ([] : List Str) := by
  constructor
  · decide
  · decide

/-- Witness for the amended claim C8 at a concrete instance. -/
theorem c8_witness :
    ((DAWG.empty.add ['a'] [['A']]).add ['a'] [['B']]).size =
        (DAWG.empty.add ['a'] [['A']]).size ∧
      ((DAWG.empty.add ['a'] [['A']]).add ['a'] [['B']]).getFlags ['a'] =
        some [['B']] :=
  c8_re_add_size_and_flags DAWG.empty ['a'] [['A']] [['B']]
    (by decide) (by decide)

/-! Path lemmas for the prefix claim. -/

theorem Trie.findNode_append : (t : Trie) → (p s : Str) →
    t.findNode (p ++ s) =
      (match t.findNode p with
       | some n => n.findNode s
       | none => none)
  | t, [], s => by simp [Trie.findNode]
  | .node e f kids, c :: p, s => by
    cases hf : kids.find c with
    | some child => simp [Trie.findNode, hf, Trie.findNode_append child p s]
    | none => simp [Trie.findNode, hf]

theorem Trie.findNode_empty_isSome (p : Str) :
    (Trie.empty.findNode p).isSome = true ↔ p = [] := by
  cases p with
  | nil => simp [Trie.empty, Trie.findNode]
  | cons c rest => simp [Trie.empty, Trie.findNode, Kids.find]

theorem Trie.addGo_findNode_isSome : (p : Str) → (t : Trie) → (w : Str) →
    (fl : List Str) →
    (((t.addGo w fl).1.findNode p).isSome = true ↔
      (t.findNode p).isSome = true ∨ p.isPrefixOf w = true)
  | [], t, w, fl => by
    simp [Trie.findNode, List.isPrefixOf]
  | c :: pr, .node e f kids, [], fl => by
    simp [Trie.addGo, Trie.findNode, List.isPrefixOf]
  | c :: pr, .node e f kids, a :: wr, fl => by
    by_cases hac : a = c
    · subst hac
      have ih := Trie.addGo_findNode_isSome pr ((kids.find a).getD Trie.empty) wr fl
      cases hf : kids.find a with
      | some child =>
        rw [hf] at ih
        simp only [Option.getD_some] at ih
        simp only [Trie.addGo, Trie.findNode, Kids.find_set_self, hf,
          Option.getD_some]
        rw [ih]
        simp [List.isPrefixOf]
      | none =>
        rw [hf] at ih
        simp only [Option.getD_none] at ih
        rw [Trie.findNode_empty_isSome] at ih
        simp only [Trie.addGo, Trie.findNode, Kids.find_set_self, hf,
          Option.getD_none]
        rw [ih]
        cases pr with
        | nil => simp [List.isPrefixOf]
        | cons c2 pr2 => simp [List.isPrefixOf]
    · have hca : ¬ (c = a) := fun hh => hac hh.symm
      cases hf : kids.find c with
      | some child =>
        simp only [Trie.addGo, Trie.findNode, Kids.find_set_ne _ a c _ hac, hf]
        simp [List.isPrefixOf, hca]
      | none =>
        simp only [Trie.addGo, Trie.findNode, Kids.find_set_ne _ a c _ hac, hf]
        simp [List.isPrefixOf, hca]

theorem Trie.containsW_addGo_mono : (v : Str) → (t : Trie) → (w : Str) →
    (fl : List Str) →
    t.containsW v = true → (t.addGo w fl).1.containsW v = true
  | [], .node e f kids, [], fl, h => by
    rw [Trie.containsW_nil] at h
    simp [Trie.addGo, Trie.containsW_nil, h]
  | [], .node e f kids, a :: wr, fl, h => by
    rw [Trie.containsW_nil] at h
    simp [Trie.addGo, Trie.containsW_nil, h]
  | c :: vr, .node e f kids, [], fl, h => by
    rw [Trie.containsW_cons] at h
    simp only [Trie.addGo, Trie.containsW_cons]
    exact h
  | c :: vr, .node e f kids, a :: wr, fl, h => by
    rw [Trie.containsW_cons] at h
    cases hf : kids.find c with
    | some child =>
      rw [hf] at h
      by_cases hac : a = c
      · subst hac
        have ih := Trie.containsW_addGo_mono vr child wr fl h
        simp only [Trie.addGo, Trie.containsW_cons, Kids.find_set_self, hf,
          Option.getD_some]
        exact ih
      · simp only [Trie.addGo, Trie.containsW_cons,
          Kids.find_set_ne _ a c _ hac, hf]
        exact h
    | none =>
      rw [hf] at h
      simp at h

/-! Word-graph level prefix lemmas. -/

theorem DAWG.hasPrefix_of_contains (d : DAWG) (p : Str)
    (h : ∃ s, d.root.containsW (p ++ s) = true) : d.hasPrefix p = true := by
  obtain ⟨s, hs⟩ := h
  unfold DAWG.hasPrefix
  cases hp : d.root.findNode p with
  | some n => simp
  | none =>
    have happ := Trie.findNode_append d.root p s
    rw [hp] at happ
    simp [Trie.containsW, happ] at hs

theorem runAdds_contains_mono (adds : List (Str × List Str)) :
    ∀ (d : DAWG) (v : Str), d.root.containsW v = true →
      (adds.foldl (fun d pr => d.add pr.1 pr.2) d).root.containsW v = true := by
  induction adds with
  | nil => intro d v h; simpa using h
  | cons hd rest ih =>
    intro d v h
    simp only [List.foldl_cons]
    apply ih
    by_cases hw : hd.1 = []
    · simpa [DAWG.add, hw] using h
    · simp only [DAWG.add, if_neg hw]
      exact Trie.containsW_addGo_mono v d.root hd.1 hd.2 h

theorem runAdds_added_contained (adds : List (Str × List Str)) :
    ∀ (d : DAWG) (pr : Str × List Str), pr ∈ adds → pr.1 ≠ [] →
      (adds.foldl (fun d pr => d.add pr.1 pr.2) d).root.containsW pr.1 = true := by
  induction adds with
  | nil => intro d pr hm; exact absurd hm (List.not_mem_nil pr)
  | cons hd rest ih =>
    intro d pr hm hne
    rcases List.mem_cons.mp hm with heq | hmem
    · subst heq
      simp only [List.foldl_cons]
      apply runAdds_contains_mono
      simp only [DAWG.add, if_neg hne]
      exact Trie.containsW_addGo_self d.root pr.1 pr.2
    · simp only [List.foldl_cons]
      exact ih (d.add hd.1 hd.2) pr hmem hne

theorem runAdds_path_origin (adds : List (Str × List Str)) :
    ∀ (d : DAWG) (p : Str),
      ((adds.foldl (fun d pr => d.add pr.1 pr.2) d).root.findNode p).isSome = true →
      (d.root.findNode p).isSome = true ∨
        ∃ pr ∈ adds, p.isPrefixOf pr.1 = true := by
  induction adds with
  | nil => intro d p h; exact Or.inl (by simpa using h)
  | cons hd rest ih =>
    intro d p h
    simp only [List.foldl_cons] at h
    rcases ih (d.add hd.1 hd.2) p h with h1 | ⟨pr, hm, hp⟩
    · by_cases hw : hd.1 = []
      · left
        simpa [DAWG.add, hw] using h1
      · simp only [DAWG.add, if_neg hw] at h1
        rcases (Trie.addGo_findNode_isSome p d.root hd.1 hd.2).mp h1 with h2 | h2
        · exact Or.inl h2
        · exact Or.inr ⟨hd, List.mem_cons_self hd rest, h2⟩
    · exact Or.inr ⟨pr, List.mem_cons_of_mem hd hm, hp⟩

theorem isPrefixOf_exists_append : (p w : Str) → p.isPrefixOf w = true →
    ∃ s, w = p ++ s
  | [], w, _ => ⟨w, rfl⟩
  | a :: p, [], h => by simp [List.isPrefixOf] at h
  | a :: p, b :: w, h => by
    simp only [List.isPrefixOf, Bool.and_eq_true, beq_iff_eq] at h
    obtain ⟨rfl, h2⟩ := h
    obtain ⟨s, rfl⟩ := isPrefixOf_exists_append p w h2
    exact ⟨s, rfl⟩

/-- Claim C7 (amended): a stored word extending `p` always makes
`hasPrefix(p)` true, and over graphs built by insertions alone (at least
one, with non-empty words) `hasPrefix(p)` holds exactly when some stored
word has `p` as a prefix; after removals the equivalence fails because
branches are not compacted, which is the corrected part of the claim. -/
theorem c7_amended :
    (∀ (d : DAWG) (p : Str),
      (∃ s, d.root.containsW (p ++ s) = true) → d.hasPrefix p = true) ∧
    (∀ adds : List (Str × List Str), adds ≠ [] →
      (∀ pr ∈ adds, pr.1 ≠ []) →
      ∀ p : Str, ((runAdds adds).hasPrefix p = true ↔
        ∃ s, (runAdds adds).root.containsW (p ++ s) = true)) := by
  constructor
  · exact fun d p h => DAWG.hasPrefix_of_contains d p h
  · intro adds hne hwords p
    constructor
    · intro h
      unfold DAWG.hasPrefix runAdds at h
      rcases runAdds_path_origin adds DAWG.empty p h with h1 | ⟨pr, hm, hp⟩
      · have hp0 : p = [] := by
          have := (Trie.findNode_empty_isSome p).mp h1
          exact this
        subst hp0
        cases adds with
        | nil => exact absurd rfl hne
        | cons hd rest =>
          refine ⟨hd.1, ?_⟩
          simp only [List.nil_append]
          exact runAdds_added_contained (hd :: rest) DAWG.empty hd
            (List.mem_cons_self hd rest)
            (hwords hd (List.mem_cons_self hd rest))
      · obtain ⟨s, hseq⟩ := isPrefixOf_exists_append p pr.1 hp
        refine ⟨s, ?_⟩
        rw [← hseq]
        exact runAdds_added_contained adds DAWG.empty pr hm (hwords pr hm)
    · exact fun h => DAWG.hasPrefix_of_contains (runAdds adds) p h

/-- Claim C7, counterexample to the claim as stated: after adding `ab`
and removing it again, `hasPrefix "ab"` is still true although no word is
stored in the graph at all. -/
theorem c7_counterexample :
    ¬ (d7.hasPrefix ['a', 'b'] = true ↔
        ∃ s, d7.root.containsW (['a', 'b'] ++ s) = true) := by
  intro h
  obtain ⟨s, hs⟩ := h.mp (by decide)
  cases s with
  | nil => exact absurd hs (by decide)
  | cons c s2 =>
    have hroot : d7.root =
        Trie.node false none
          (Kids.cons 'a'
            (Trie.node false none
              (Kids.cons 'b' (Trie.node false none Kids.nil) Kids.nil))
            Kids.nil) := rfl
    rw [hroot] at hs
    simp [Trie.containsW_cons, Kids.find] at hs

/-- Witness for the amended claim C7 at concrete instances of both
parts. -/
theorem c7_witness :
    dT.hasPrefix ['b'] = true ∧
      ((runAdds [(['b', 'b'], [])]).hasPrefix ['b'] = true ↔
        ∃ s, (runAdds [(['b', 'b'], [])]).root.containsW (['b'] ++ s) = true) :=
  ⟨c7_amended.1 dT ['b'] ⟨['b'], by decide⟩,
    c7_amended.2 [(['b', 'b'], [])] (by decide)
      (by
        intro pr hm
        simp at hm
        subst hm
        decide) ['b']⟩

/-! Normalization lemmas. -/

theorem normalize_nil_word (conversions : List (Str × Str)) :
    normalize conversions [] = [] := by
  induction conversions with
  | nil => rfl
  | cons pr rest ih =>
    simp only [normalize, List.foldl_cons]
    have : replaceAll [] pr.1 pr.2 = [] := rfl
    rw [this]
    exact ih

theorem normalize_nil_conv (w : Str) : normalize [] w = w := rfl

/-! Compound fallback. -/

theorem checkCompound_iff (fl : AffixFlags) (rules : List (Str → Bool))
    (word : Str) :
    (checkCompound fl rules word = true ↔
      (fl.COMPOUNDMIN * 2 ≤ word.length ∧ ∃ r ∈ rules, r word = true)) := by
  unfold checkCompound
  by_cases h1 : word.length < fl.COMPOUNDMIN * 2
  · simp only [if_pos h1]
    constructor
    · intro h; exact absurd h (by simp)
    · intro h; omega
  · simp only [if_neg h1]
    cases rules with
    | nil =>
      simp
    | cons r rs =>
      simp only [List.isEmpty, Bool.false_eq_true, if_false, List.any_eq_true]
      constructor
      · intro h
        exact ⟨by omega, h⟩
      · intro h
        exact h.2

/-- Claim C3: when the case cascade finds no form, the validator reports
the token correct exactly when the normalized token is at least twice
`COMPOUNDMIN` long and some compiled compound rule matches the whole
token. -/
theorem c3_compound_fallback (fl : AffixFlags) (conv : List (Str × Str))
    (rules : List (Str → Bool)) (d : DAWG) (word : Str)
    (hn : normalize conv (trimStr word) ≠ [])
    (hf : form d fl conv (normalize conv (trimStr word)) true = none) :
    ((spell fl conv rules d word).correct = true ↔
      (fl.COMPOUNDMIN * 2 ≤ (normalize conv (trimStr word)).length ∧
        ∃ r ∈ rules, r (normalize conv (trimStr word)) = true)) := by
  by_cases hw : word = []
  · exfalso
    apply hn
    rw [hw]
    exact normalize_nil_word conv
  · unfold spell
    simp only [if_neg hw, if_neg hn, hf]
    exact checkCompound_iff fl rules (normalize conv (trimStr word))

/-- Witness for claim C3 at a concrete compound instance. -/
theorem c3_witness :
    (spell flG [] rulesG DAWG.empty "abab".toList).correct = true :=
  (c3_compound_fallback flG [] rulesG DAWG.empty "abab".toList
      (by decide) (by decide)).mpr
    ⟨by decide,
      ⟨fun w => w = "abab".toList, by simp [rulesG], by decide⟩⟩

/-! Case-cascade asymmetry around ONLYINCOMPOUND. -/

/-- Claim C10: the exact-match branch of the case cascade rejects a word
flagged `ONLYINCOMPOUND`, while the lowercase fallback (which only checks
`KEEPCASE` and `FORBIDDENWORD`) does not: a lowercase-stored word flagged
only-in-compound yields no form for the exact query yet yields the stored
lowercase form for the all-uppercase query. -/
theorem c10_case_cascade (d : DAWG) (fl : AffixFlags) (w : Str)
    (fs : List Str)
    (hne : w ≠ [])
    (htrim1 : trimStr w = w)
    (htrim2 : trimStr (ucStr w) = ucStr w)
    (hucne : ucStr w ≠ w)
    (hucuc : ucStr (ucStr w) = ucStr w)
    (hlcuc : lcStr (ucStr w) = w)
    (hhas : d.has w = true)
    (hget : d.getFlags w = some fs)
    (hoic : hasFlag (some fs) fl.ONLYINCOMPOUND = true)
    (hkc : hasFlag (some fs) fl.KEEPCASE = false)
    (hnotup : d.has (ucStr w) = false)
    (halt : d.has ((ucStr w).take 1 ++ lcStr ((ucStr w).drop 1)) = false) :
    form d fl [] w true = none ∧ form d fl [] (ucStr w) true = some w := by
  have hucne' : ucStr w ≠ [] := by
    intro h
    apply hne
    simpa [ucStr] using h
  constructor
  · unfold form
    simp only [htrim1, if_neg hne, normalize_nil_conv, hhas, if_pos rfl,
      hget, hoic, Bool.not_true, Bool.false_and]
    simp
  · unfold form
    simp only [htrim2, if_neg hucne', normalize_nil_conv, hnotup]
    simp only [Bool.false_eq_true, if_false, if_pos hucuc, halt,
      Bool.and_false]
    simp only [Bool.false_eq_true, and_false, if_false, hlcuc,
      if_pos (Ne.symm hucne)]
    unfold shouldIgnore
    simp only [hget, hkc, Bool.not_true, Bool.false_and, Bool.or_false,
      Bool.not_false, Bool.true_and, hhas]
    simp

/-- Witness for claim C10: `ab` stored only-in-compound is refused
directly but recovered from `AB`. -/
theorem c10_witness :
    form dO flO [] "ab".toList true = none ∧
      form dO flO [] (ucStr "ab".toList) true = some "ab".toList :=
  c10_case_cascade dO flO "ab".toList [['O']]
    (by decide) (by decide) (by decide) (by decide) (by decide) (by decide)
    (by decide) (by decide) (by decide) (by decide) (by decide) (by decide)

/-! Personal-dictionary forbidden lines. -/

theorem splitLinesGo_no_newline : (cur s : Str) → s.contains '\n' = false →
    splitLinesGo cur s = [cur.reverse ++ s]
  | cur, [], _ => by simp [splitLinesGo]
  | cur, c :: rest, h => by
    simp only [List.contains, List.elem] at h
    by_cases hc : c = '\n'
    · subst hc
      simp at h
    · have hcb : ('\n' == c) = false := by
        simp [hc]
        intro hcontra
        exact hc hcontra.symm
      rw [hcb] at h
      have ih := splitLinesGo_no_newline (c :: cur) rest h
      simp [splitLinesGo, hc, ih]

theorem splitLines_star_single (W : Str) (h : W.contains '\n' = false) :
    splitLines ('*' :: W) = ['*' :: W] := by
  unfold splitLines
  have hstep := splitLinesGo_no_newline ['*'] W h
  simp [splitLinesGo, hstep]

theorem contains_append_self (l : List Str) (x : Str) :
    (l ++ [x]).contains x = true := by
  induction l with
  | nil => simp [List.contains, List.elem]
  | cons a l ih =>
    simp only [List.cons_append, List.contains, List.elem] at ih ⊢
    cases hax : x == a <;> simp [ih]

theorem forbidden_mark_hit (fl : AffixFlags) (ex : List Str) :
    (hasFlag (some (ex ++ [forbiddenFlagOf fl])) fl.FORBIDDENWORD ||
      hasFlag (some (ex ++ [forbiddenFlagOf fl])) (some forbiddenMarker)) =
      true := by
  have hm : forbiddenMarker ≠ [] := by decide
  unfold forbiddenFlagOf
  cases hf : fl.FORBIDDENWORD with
  | none =>
    simp [hasFlag, hm, contains_append_self]
  | some f =>
    by_cases hfe : f = []
    · subst hfe
      simp [hasFlag, hm, contains_append_self]
    · simp [hasFlag, hfe, contains_append_self]

theorem personalLine_star (cfg : NSpellCfg) (st : NSpellState) (W : Str)
    (htrim : trimStr ('*' :: W) = '*' :: W) :
    personalLine cfg st ('*' :: W) =
      ⟨st.dawg.add W
          (((st.dawg.getFlags W).getD []) ++ [forbiddenFlagOf cfg.flags]),
        st.buckets⟩ := by
  unfold personalLine
  rw [htrim]
  simp

theorem DAWG.has_add_self (d : DAWG) (w : Str) (fl : List Str)
    (hw : w ≠ []) : (d.add w fl).has w = true := by
  simp only [DAWG.add, DAWG.has, if_neg hw]
  exact Trie.containsW_addGo_self d.root w fl

theorem DAWG.getFlags_add_self (d : DAWG) (w : Str) (fl : List Str)
    (hw : w ≠ []) (hf : fl ≠ []) : (d.add w fl).getFlags w = some fl := by
  simp only [DAWG.add, DAWG.getFlags, if_neg hw]
  exact Trie.getFlagsW_addGo_self d.root w fl hf

/-- Claim C4 (amended): for a correct word that is stable under trimming
and input conversion and holds no newline, loading the personal line
`*W` re-adds `W` with the forbidden code appended to its existing flags,
after which `spell W` reports forbidden and not correct; the amendment
adds the stability conditions and requires the augmented flag list not to
trip the `ONLYINCOMPOUND` rejection of the case cascade. -/
theorem c4_amended (cfg : NSpellCfg) (st : NSpellState) (W : Str)
    (hW : W ≠ [])
    (hnl : W.contains '\n' = false)
    (htrim1 : trimStr ('*' :: W) = '*' :: W)
    (htrim2 : trimStr W = W)
    (hnorm : normalize cfg.convIn W = W)
    (hcorr : correctTop cfg st W = true)
    (hoic : hasFlag
        (some (((st.dawg.getFlags W).getD []) ++ [forbiddenFlagOf cfg.flags]))
        cfg.flags.ONLYINCOMPOUND = false) :
    (spellTop cfg (personal cfg st ('*' :: W)) W).forbidden = true ∧
      (spellTop cfg (personal cfg st ('*' :: W)) W).correct = false := by
  have hfb : (((st.dawg.getFlags W).getD []) ++
      [forbiddenFlagOf cfg.flags]) ≠ [] := by simp
  have hpers : personal cfg st ('*' :: W) =
      ⟨st.dawg.add W
          (((st.dawg.getFlags W).getD []) ++ [forbiddenFlagOf cfg.flags]),
        st.buckets⟩ := by
    unfold personal
    rw [splitLines_star_single W hnl]
    simp only [List.foldl_cons, List.foldl_nil]
    exact personalLine_star cfg st W htrim1
  rw [hpers]
  have hhas2 := DAWG.has_add_self st.dawg W
    (((st.dawg.getFlags W).getD []) ++ [forbiddenFlagOf cfg.flags]) hW
  have hget2 := DAWG.getFlags_add_self st.dawg W
    (((st.dawg.getFlags W).getD []) ++ [forbiddenFlagOf cfg.flags]) hW hfb
  have hform : form
      (st.dawg.add W
        (((st.dawg.getFlags W).getD []) ++ [forbiddenFlagOf cfg.flags]))
      cfg.flags cfg.convIn W true = some W := by
    unfold form
    rw [htrim2]
    simp only [if_neg hW, hnorm, hhas2, if_pos rfl, hget2, hoic,
      Bool.not_true, Bool.false_and]
    simp
  unfold spellTop spell
  simp only [if_neg hW, htrim2, hnorm, hform]
  rw [hget2]
  have hfbd := forbidden_mark_hit cfg.flags ((st.dawg.getFlags W).getD [])
  simp only [if_neg hW, hfbd]
  simp

/-- Witness for claim C4: forbidding `hello` over an English-like state. -/
theorem c4_witness :
    (spellTop cfgE (personal cfgE stE ('*' :: "hello".toList))
        "hello".toList).forbidden = true ∧
      (spellTop cfgE (personal cfgE stE ('*' :: "hello".toList))
        "hello".toList).correct = false :=
  c4_amended cfgE stE "hello".toList (by decide) (by decide) (by decide)
    (by decide) (by decide) (by decide) (by decide)

/-- Claim C4, counterexample to the claim as stated: the word consisting
of a space followed by `hello` is accepted as correct (validation trims
it), yet after the personal line `* hello` the forbidden copy is stored
untrimmed, so `spell` still reports the word correct and not forbidden. -/
theorem c4_counterexample :
    correctTop cfgE stE (' ' :: "hello".toList) = true ∧
      (spellTop cfgE (personal cfgE stE ('*' :: ' ' :: "hello".toList))
        (' ' :: "hello".toList)).forbidden = false ∧
      (spellTop cfgE (personal cfgE stE ('*' :: ' ' :: "hello".toList))
        (' ' :: "hello".toList)).correct = true := by decide

/-! Degenerate inputs and already-correct inputs. -/

theorem correct_renorm (fl : AffixFlags) (conv : List (Str × Str))
    (rules : List (Str → Bool)) (d : DAWG) (x : Str)
    (hx : x ≠ []) (ht : trimStr x ≠ [])
    (hn : normalize conv (trimStr x) ≠ [])
    (hidem : normalize conv (trimStr (normalize conv (trimStr x))) =
      normalize conv (trimStr x)) :
    correct fl conv rules d (normalize conv (trimStr x)) =
      correct fl conv rules d x := by
  have ht2 : trimStr (normalize conv (trimStr x)) ≠ [] := by
    intro h
    apply hn
    rw [h] at hidem
    rw [← hidem]
    exact normalize_nil_word conv
  unfold correct
  simp only [if_neg hn, if_neg hx, if_neg ht, if_neg ht2]
  by_cases hc : conv = []
  · subst hc
    simp only [ne_eq, not_true_eq_false, if_false, reduceIte,
      normalize_nil_conv]
    rw [normalize_nil_conv, normalize_nil_conv] at hidem
    rw [hidem]
  · simp only [ne_eq, hc, not_false_eq_true, if_true, reduceIte]
    rw [hidem]

/-- Claim C9 (amended): on input that is empty or whitespace-only after
trimming, `correct` returns false, `spell` returns the all-false record
and `suggest` returns the empty list; and when input conversion composed
with trimming is idempotent on the token, `suggest` of a correct token
returns the empty list.  The amendment adds the idempotence condition:
`suggest` rechecks correctness of the already-normalized token, which can
disagree with correctness of the raw token under a non-idempotent
`ICONV` table. -/
theorem c9_degenerate_and_correct (cfg : NSpellCfg) (st : NSpellState)
    (x : Str) :
    (trimStr x = [] →
      correctTop cfg st x = false ∧
        spellTop cfg st x = ⟨false, false, false⟩ ∧
        suggestTop cfg st x = []) ∧
      (normalize cfg.convIn (trimStr (normalize cfg.convIn (trimStr x))) =
          normalize cfg.convIn (trimStr x) →
        correctTop cfg st x = true → suggestTop cfg st x = []) := by
  constructor
  · intro hws
    have hn : normalize cfg.convIn (trimStr x) = [] := by
      rw [hws]
      exact normalize_nil_word cfg.convIn
    refine ⟨?_, ?_, ?_⟩
    · unfold correctTop correct
      by_cases hx : x = []
      · simp [hx]
      · simp [if_neg hx, hws]
    · unfold spellTop spell
      by_cases hx : x = []
      · simp [hx]
      · simp [if_neg hx, hn]
    · unfold suggestTop suggest
      simp [hn]
  · intro hidem hcorr
    have hx : x ≠ [] := by
      intro h
      rw [h] at hcorr
      simp [correctTop, correct] at hcorr
    have ht : trimStr x ≠ [] := by
      intro h
      unfold correctTop correct at hcorr
      rw [if_neg hx, h] at hcorr
      simp at hcorr
    by_cases hn : normalize cfg.convIn (trimStr x) = []
    · unfold suggestTop suggest
      simp [hn]
    · have hcn : correctTop cfg st (normalize cfg.convIn (trimStr x)) =
          true := by
        unfold correctTop
        rw [correct_renorm cfg.flags cfg.convIn cfg.compoundRules st.dawg x
          hx ht hn hidem]
        exact hcorr
      unfold suggestTop suggest
      rw [if_pos (Or.inr hcn)]

/-- Witness for claim C9: a whitespace-only token over the minimal
instance, and the correct token `bb`. -/
theorem c9_witness :
    (correctTop cfgT stT [' '] = false ∧
        spellTop cfgT stT [' '] = ⟨false, false, false⟩ ∧
        suggestTop cfgT stT [' '] = []) ∧
      suggestTop cfgT stT "bb".toList = [] :=
  ⟨(c9_degenerate_and_correct cfgT stT [' ']).1 (by decide),
    (c9_degenerate_and_correct cfgT stT "bb".toList).2 (by decide)
      (by decide)⟩

set_option maxRecDepth 20000 in
set_option maxHeartbeats 4000000 in
/-- Claim C9, counterexample to the claim as stated: under the input
conversion `AB → A` the token `ABB` is accepted as correct, yet `suggest`
returns a non-empty list for it, because the conversion is not idempotent
and the recheck inside `suggest` runs on the once-converted token. -/
theorem c9_counterexample :
    correctTop cfgD stD "ABB".toList = true ∧
      suggestTop cfgD stD "ABB".toList = ["AB".toList] := by decide!

/-! Edit-distance-2 fallback control flow. -/

/-- Claim C6 (amended): the edit-distance-2 fallback runs exactly when
the earlier strategies left fewer than five valid candidates (not only
when they produced none), and inside the batch loop a batch that lifts
the valid count to at least five ends the loop at once, while a batch
that does not (subject to the running conditions of fewer than ten valid
candidates and an unexhausted iteration cap) lets the loop continue on
the grown state. -/
theorem c6_fallback_control (cfg : NSpellCfg) (normalized : Str) (d : DAWG)
    (st : SugState) :
    (5 ≤ st.validRev.length → suggestBatches cfg normalized d st = st) ∧
      (st.validRev.length < 5 →
        suggestBatches cfg normalized d st =
          ed2Loop d cfg.flags (ed2BatchSize normalized)
            (ed2MaxIter st normalized) (ed2MaxIter st normalized) st 0) ∧
      (∀ fuel previous batchSize maxIter : Nat,
        st.validRev.length < 10 → previous < maxIter →
        5 ≤ (processBatch d cfg.flags st previous
            (previous + batchSize)).validRev.length →
        ed2Loop d cfg.flags batchSize maxIter (fuel + 1) st previous =
          processBatch d cfg.flags st previous (previous + batchSize)) ∧
      (∀ fuel previous batchSize maxIter : Nat,
        st.validRev.length < 10 → previous < maxIter →
        (processBatch d cfg.flags st previous
            (previous + batchSize)).validRev.length < 5 →
        ed2Loop d cfg.flags batchSize maxIter (fuel + 1) st previous =
          ed2Loop d cfg.flags batchSize maxIter fuel
            (processBatch d cfg.flags st previous (previous + batchSize))
            (previous + batchSize)) := by
  refine ⟨?_, ?_, ?_, ?_⟩
  · intro h
    unfold suggestBatches
    rw [if_neg (by omega)]
  · intro h
    unfold suggestBatches
    rw [if_pos h]
  · intro fuel previous batchSize maxIter h10 hp h5
    simp only [ed2Loop]
    rw [if_pos ⟨h10, hp⟩, if_pos h5]
  · intro fuel previous batchSize maxIter h10 hp h5
    simp only [ed2Loop]
    rw [if_pos ⟨h10, hp⟩, if_neg (by omega)]

/-- Witness for claim C6: the four control-flow branches exercised on
small concrete suggestion states over the minimal instance. -/
theorem c6_witness :
    (suggestBatches cfgT "bb".toList dT
        ⟨StMap.empty, [], [['a'], ['b'], ['c'], ['d'], ['e']], []⟩ =
      ⟨StMap.empty, [], [['a'], ['b'], ['c'], ['d'], ['e']], []⟩) ∧
      (suggestBatches cfgT "bb".toList dT ⟨StMap.empty, [], [], []⟩ =
        ed2Loop dT cfgT.flags (ed2BatchSize "bb".toList)
          (ed2MaxIter ⟨StMap.empty, [], [], []⟩ "bb".toList)
          (ed2MaxIter ⟨StMap.empty, [], [], []⟩ "bb".toList)
          ⟨StMap.empty, [], [], []⟩ 0) ∧
      (ed2Loop dT cfgT.flags 1 1 1
          ⟨StMap.empty, [], [['a'], ['c'], ['d'], ['e']], ["bbb".toList]⟩ 0 =
        processBatch dT cfgT.flags
          ⟨StMap.empty, [], [['a'], ['c'], ['d'], ['e']], ["bbb".toList]⟩
          0 1) ∧
      (ed2Loop dT cfgT.flags 1 1 1 ⟨StMap.empty, [], [], [['x']]⟩ 0 =
        ed2Loop dT cfgT.flags 1 1 0
          (processBatch dT cfgT.flags ⟨StMap.empty, [], [], [['x']]⟩ 0 1) 1) :=
  ⟨(c6_fallback_control cfgT "bb".toList dT
      ⟨StMap.empty, [], [['a'], ['b'], ['c'], ['d'], ['e']], []⟩).1
      (by decide),
    (c6_fallback_control cfgT "bb".toList dT
      ⟨StMap.empty, [], [], []⟩).2.1 (by decide),
    (c6_fallback_control cfgT "bb".toList dT
      ⟨StMap.empty, [], [['a'], ['c'], ['d'], ['e']], ["bbb".toList]⟩).2.2.1
      0 0 1 1 (by decide) (by decide) (by decide),
    (c6_fallback_control cfgT "bb".toList dT
      ⟨StMap.empty, [], [], [['x']]⟩).2.2.2
      0 0 1 1 (by decide) (by decide) (by decide)⟩

set_option maxRecDepth 20000 in
set_option maxHeartbeats 4000000 in
/-- Claim C6, counterexample to the claim as stated: on input `AAB`
against the dictionary `{AB, B}` the earlier strategies already produce a
valid suggestion, yet the edit-distance-2 fallback still runs and grows
the valid-candidate list. -/
theorem c6_counterexample :
    (phase1 cfgC dC "AAB".toList).validRev ≠ [] ∧
      (suggestBatches cfgC "AAB".toList dC
          (phase1 cfgC dC "AAB".toList)).validRev ≠
        (phase1 cfgC dC "AAB".toList).validRev := by decide!

/-! Replacement-table weighting and the S4 scenario. -/

set_option maxRecDepth 20000 in
set_option maxHeartbeats 4000000 in
/-- Claim C2, counterexample to the claim as stated: the scoring block
assigns no origin-based weight, and a valid candidate produced by the
replacement table (`CZZZT`, from `A → ZZZ` on `CAT`) is ranked after the
valid candidate `CART` that no replacement produced, which the claimed
weight-10-first ordering would forbid. -/
theorem c2_counterexample :
    strategyRep cfgB.replacementTable "CAT".toList = ["CZZZT".toList] ∧
      suggestTop cfgB stB "CAT".toList =
        ["CART".toList, "CZZZT".toList] := by decide!

set_option maxRecDepth 20000 in
set_option maxHeartbeats 4000000 in
/-- Claim C2 (amended): the concrete scenario of the claim still holds
without any weight mechanism — with replacement pairs `ie → ei` and
`ei → ie` over the dictionary `{receive}`, `suggest` of `recieve` returns
exactly `receive`, which therefore ranks first. -/
theorem c2_s4_scenario :
    suggestTop cfgS4 stS4 "recieve".toList = ["receive".toList] := by decide!

/-! Suggestion-validity invariant. -/

theorem char_toNat_inj (a b : Char) (h : a.toNat = b.toNat) : a = b :=
  Char.ext (UInt32.ext h)

theorem StMap.find_empty (w : Str) : StMap.empty.find w = none := by
  cases w <;> simp [StMap.empty, StMap.find, StKids.find]

theorem StKids.find_set_same : (k : StKids) → (c : Nat) → (m : StMap) →
    (k.set c m).find c = some m
  | .nil, c, m => by simp [StKids.set, StKids.find, Nat.beq_refl]
  | .cons k0 u rest, c, m => by
    cases hk : Nat.beq k0 c
    · simp only [StKids.set, StKids.find, hk]
      exact StKids.find_set_same rest c m
    · simp only [StKids.set, StKids.find, hk]

theorem StKids.find_set_other : (k : StKids) → (c c' : Nat) → (m : StMap) →
    c' ≠ c → (k.set c m).find c' = k.find c'
  | .nil, c, c', m, h => by
    have hcc : Nat.beq c c' = false := by
      cases hb : Nat.beq c c'
      · rfl
      · exact absurd (Nat.eq_of_beq_eq_true hb).symm h
    simp [StKids.set, StKids.find, hcc]
  | .cons k0 u rest, c, c', m, h => by
    have hcc : Nat.beq c c' = false := by
      cases hb : Nat.beq c c'
      · rfl
      · exact absurd (Nat.eq_of_beq_eq_true hb).symm h
    cases hk : Nat.beq k0 c
    · cases hk' : Nat.beq k0 c' <;>
        simp only [StKids.set, StKids.find, hk, hk']
      exact StKids.find_set_other rest c c' m h
    · have hk0 : k0 = c := Nat.eq_of_beq_eq_true hk
      subst hk0
      simp only [StKids.set, StKids.find, hk, hcc]

theorem StMap.find_insert : (k : Str) → (m : StMap) → (w : Str) →
    (b r : Bool) → (m.insert k b).find w = some r →
    (w = k ∧ r = b) ∨ m.find w = some r
  | [], .node v kids, w, b, r => by
    cases w with
    | nil =>
      intro h
      simp only [StMap.insert, StMap.find] at h
      exact Or.inl ⟨rfl, (Option.some_inj.mp h).symm⟩
    | cons c w' =>
      intro h
      simp only [StMap.insert, StMap.find] at h ⊢
      exact Or.inr h
  | c :: k', .node v kids, w, b, r => by
    cases w with
    | nil =>
      intro h
      simp only [StMap.insert, StMap.find] at h ⊢
      exact Or.inr h
    | cons c2 w' =>
      intro h
      simp only [StMap.insert, StMap.find] at h ⊢
      by_cases hc : c2.toNat = c.toNat
      · rw [hc, StKids.find_set_same] at h
        have hrec := StMap.find_insert k'
          ((kids.find c.toNat).getD StMap.empty) w' b r h
        rcases hrec with ⟨hw, hr⟩ | hold
        · exact Or.inl ⟨by rw [hw, char_toNat_inj c2 c hc], hr⟩
        · cases hkf : kids.find c.toNat with
          | some m0 =>
            rw [hkf] at hold
            rw [hc, hkf]
            exact Or.inr hold
          | none =>
            rw [hkf] at hold
            simp only [Option.getD_none] at hold
            rw [StMap.find_empty] at hold
            exact absurd hold (by simp)
      · rw [StKids.find_set_other kids c.toNat c2.toNat _ hc] at h
        exact Or.inr h

theorem addSet_mem (l : List Str) (x w : Str) (h : w ∈ addSet l x) :
    w ∈ l ∨ w = x := by
  unfold addSet at h
  by_cases hc : l.contains x
  · simp only [hc, if_true] at h
    exact Or.inl h
  · simp only [hc, Bool.false_eq_true, if_false] at h
    rcases List.mem_append.mp h with h1 | h1
    · exact Or.inl h1
    · exact Or.inr (List.mem_singleton.mp h1)

theorem validateCand_inv (d : DAWG) (fl : AffixFlags) (st : SugState)
    (c : Str) (h : SugInv d fl st) : SugInv d fl (validateCand d fl st c) := by
  obtain ⟨h1, h2⟩ := h
  unfold validateCand
  cases hf : st.state.find c with
  | some b =>
    cases b
    · simp only [Bool.false_eq_true, if_false]
      exact ⟨h1, h2⟩
    · simp only [if_true]
      refine ⟨?_, h2⟩
      intro w hw
      rcases addSet_mem st.candidates c w hw with hm | rfl
      · exact h1 w hm
      · exact (h2 w true hf).symm
  | none =>
    cases hv : suggestValidB d fl c
    · simp only [hv, Bool.false_eq_true, if_false]
      refine ⟨h1, ?_⟩
      intro w b hfind
      simp only at hfind
      rcases StMap.find_insert c st.state w false b hfind with ⟨rfl, rfl⟩ | hold
      · exact hv.symm
      · exact h2 w b hold
    · simp only [hv, if_true]
      constructor
      · intro w hw
        simp only at hw
        rcases addSet_mem st.candidates c w hw with hm | rfl
        · exact h1 w hm
        · exact hv
      · intro w b hfind
        simp only at hfind
        rcases StMap.find_insert c st.state w true b hfind with ⟨rfl, rfl⟩ | hold
        · exact hv.symm
        · exact h2 w b hold

theorem checkAndAdd_inv (d : DAWG) (fl : AffixFlags) (st : SugState)
    (c : Str) (h : SugInv d fl st) : SugInv d fl (checkAndAdd d fl st c) := by
  obtain ⟨h1, h2⟩ := h
  unfold checkAndAdd
  cases hf : st.state.find c with
  | some b =>
    cases b
    · simp only [Bool.false_eq_true, if_false]
      exact ⟨h1, h2⟩
    · simp only [if_true]
      refine ⟨?_, h2⟩
      intro w hw
      rcases addSet_mem st.candidates c w hw with hm | rfl
      · exact h1 w hm
      · exact (h2 w true hf).symm
  | none =>
    cases hv : suggestValidB d fl c
    · simp only [hv, Bool.false_eq_true, if_false]
      refine ⟨h1, ?_⟩
      intro w b hfind
      simp only at hfind
      rcases StMap.find_insert c st.state w false b hfind with ⟨rfl, rfl⟩ | hold
      · exact hv.symm
      · exact h2 w b hold
    · simp only [hv, if_true]
      constructor
      · intro w hw
        simp only at hw
        rcases addSet_mem st.candidates c w hw with hm | rfl
        · exact h1 w hm
        · exact hv
      · intro w b hfind
        simp only at hfind
        rcases StMap.find_insert c st.state w true b hfind with ⟨rfl, rfl⟩ | hold
        · exact hv.symm
        · exact h2 w b hold

theorem foldSt_inv (P : SugState → Prop) (f : SugState → α → SugState)
    (hf : ∀ st a, P st → P (f st a)) :
    (l : List α) → (st : SugState) → P st → P (foldSt f st l)
  | [], st, h => h
  | a :: l, st, h => by
    have h2 := hf st a h
    cases hfa : f st a with
    | mk s1 s2 s3 s4 =>
      simp only [foldSt, hfa]
      exact foldSt_inv P f hf l ⟨s1, s2, s3, s4⟩ (by rw [← hfa]; exact h2)

theorem ed1Step_inv (d : DAWG) (fl : AffixFlags) (wc : Option Casing)
    (word : Str) (st : SugState) (p : Nat) (h : SugInv d fl st) :
    SugInv d fl (ed1Step d fl wc word st p) := by
  unfold ed1Step
  apply foldSt_inv
  · intro st' a h'
    dsimp only
    split
    · apply checkAndAdd_inv
      apply checkAndAdd_inv
      split
      · apply checkAndAdd_inv
        apply checkAndAdd_inv
        exact h'
      · exact h'
    · apply checkAndAdd_inv
      apply checkAndAdd_inv
      exact h'
  · split
    · apply checkAndAdd_inv
      apply checkAndAdd_inv
      split
      · apply checkAndAdd_inv
        apply checkAndAdd_inv
        exact h
      · exact h
    · apply checkAndAdd_inv
      split
      · apply checkAndAdd_inv
        apply checkAndAdd_inv
        exact h
      · exact h

theorem ed1Word_inv (d : DAWG) (fl : AffixFlags) (st : SugState)
    (word : Str) (h : SugInv d fl st) : SugInv d fl (ed1Word d fl st word) := by
  unfold ed1Word
  apply foldSt_inv
  · intro st' a h'
    exact ed1Step_inv d fl (detectCasing word) word st' a h'
  · exact h

theorem phase1_inv (cfg : NSpellCfg) (d : DAWG) (normalized : Str) :
    SugInv d cfg.flags (phase1 cfg d normalized) := by
  unfold phase1
  apply foldSt_inv
  · intro st' a h'
    exact ed1Word_inv d cfg.flags st' a h'
  · apply foldSt_inv
    · intro st' a h'
      exact validateCand_inv d cfg.flags st' a h'
    · constructor
      · intro w hw
        exact absurd hw (List.not_mem_nil w)
      · intro w b hfind
        rw [StMap.find_empty] at hfind
        exact absurd hfind (by simp)

theorem processBatch_inv (d : DAWG) (fl : AffixFlags) (st : SugState)
    (previous next : Nat) (h : SugInv d fl st) :
    SugInv d fl (processBatch d fl st previous next) := by
  unfold processBatch
  apply foldSt_inv
  · intro st' a h'
    apply foldSt_inv
    · intro st2 i h2
      exact checkAndAdd_inv d fl st2 _ h2
    · exact h'
  · exact h

theorem ed2Loop_inv (d : DAWG) (fl : AffixFlags) (batchSize maxIter : Nat) :
    (fuel : Nat) → (st : SugState) → (previous : Nat) → SugInv d fl st →
    SugInv d fl (ed2Loop d fl batchSize maxIter fuel st previous)
  | 0, st, _, h => h
  | fuel + 1, st, previous, h => by
    simp only [ed2Loop]
    split
    · split
      · exact processBatch_inv d fl st _ _ h
      · exact ed2Loop_inv d fl batchSize maxIter fuel _ _
          (processBatch_inv d fl st _ _ h)
    · exact h

theorem suggestBatches_inv (cfg : NSpellCfg) (normalized : Str) (d : DAWG)
    (st : SugState) (h : SugInv d cfg.flags st) :
    SugInv d cfg.flags (suggestBatches cfg normalized d st) := by
  unfold suggestBatches
  split
  · exact ed2Loop_inv d cfg.flags _ _ _ st 0 h
  · exact h

theorem insertByCmp_mem (cmp : α → α → Ordering) (y : α) :
    (l : List α) → (x : α) → x ∈ insertByCmp cmp y l → x = y ∨ x ∈ l
  | [], x, h => by
    simp only [insertByCmp, List.mem_singleton] at h
    exact Or.inl h
  | z :: l, x, h => by
    simp only [insertByCmp] at h
    split at h
    · rcases List.mem_cons.mp h with h1 | h2
      · exact Or.inr (by rw [h1]; exact List.mem_cons_self z l)
      · rcases insertByCmp_mem cmp y l x h2 with h3 | h3
        · exact Or.inl h3
        · exact Or.inr (List.mem_cons_of_mem z h3)
    · rcases List.mem_cons.mp h with h1 | h2
      · exact Or.inl h1
      · exact Or.inr h2

theorem sortByCmp_mem (cmp : α → α → Ordering) :
    (l : List α) → (x : α) → x ∈ sortByCmp cmp l → x ∈ l
  | [], x, h => h
  | a :: l, x, h => by
    simp only [sortByCmp, List.foldr_cons] at h
    rcases insertByCmp_mem cmp a (sortByCmp cmp l) x h with h1 | h2
    · rw [h1]
      exact List.mem_cons_self a l
    · exact List.mem_cons_of_mem a (sortByCmp_mem cmp l x h2)

theorem outputLoop_mem (convOut : List (Str × Str)) :
    (l : List (Str × Q)) → (seen acc : List Str) → (x : Str) →
    x ∈ outputLoop convOut l seen acc →
    x ∈ acc ∨ ∃ pr ∈ l, x = denormalize convOut pr.1
  | [], seen, acc, x, h => Or.inl h
  | w :: rest, seen, acc, x, h => by
    simp only [outputLoop] at h
    split at h
    · rcases outputLoop_mem convOut rest seen acc x h with h2 | ⟨pr, hpr, hx⟩
      · exact Or.inl h2
      · exact Or.inr ⟨pr, List.mem_cons_of_mem w hpr, hx⟩
    · split at h
      · rcases List.mem_append.mp h with h2 | h2
        · exact Or.inl h2
        · exact Or.inr ⟨w, List.mem_cons_self w rest,
            List.mem_singleton.mp h2⟩
      · rcases outputLoop_mem convOut rest _ _ x h with h2 | ⟨pr, hpr, hx⟩
        · rcases List.mem_append.mp h2 with h3 | h3
          · exact Or.inl h3
          · exact Or.inr ⟨w, List.mem_cons_self w rest,
              List.mem_singleton.mp h3⟩
        · exact Or.inr ⟨pr, List.mem_cons_of_mem w hpr, hx⟩

/-- Claim C1 (amended): every string returned by `suggest` is the
reverse-converted image of a kept candidate, and kept candidates satisfy
the engine's own validity test — a dictionary hit on the candidate or its
lowercasing free of `NOSUGGEST` — rather than the validator `correct`. -/
theorem c1_suggestions_valid (cfg : NSpellCfg) (d : DAWG)
    (correctFn : Str → Bool) (value : Str) :
    ∀ s ∈ suggest cfg d correctFn value,
      ∃ w, s = denormalize cfg.convOut w ∧
        suggestValidB d cfg.flags w = true := by
  intro s hs
  simp only [suggest] at hs
  split at hs
  · exact absurd hs (List.not_mem_nil s)
  · have hinv := suggestBatches_inv cfg
      (normalize cfg.convIn (trimStr value)) d
      (phase1 cfg d (normalize cfg.convIn (trimStr value)))
      (phase1_inv cfg d (normalize cfg.convIn (trimStr value)))
    rcases outputLoop_mem cfg.convOut _ [] [] s hs with h2 | ⟨pr, hpr, hx⟩
    · exact absurd h2 (List.not_mem_nil s)
    · have hpr2 := sortByCmp_mem _ _ pr hpr
      rcases List.mem_map.mp hpr2 with ⟨w, hw, hpr3⟩
      refine ⟨w, ?_, hinv.1 w hw⟩
      rw [hx, ← hpr3]

set_option maxRecDepth 20000 in
/-- Witness for claim C1: the suggestion `bb` for the input `b` over the
minimal instance is the image of a valid candidate. -/
theorem c1_witness :
    ∃ w, "bb".toList = denormalize cfgT.convOut w ∧
      suggestValidB dT cfgT.flags w = true :=
  c1_suggestions_valid cfgT dT (fun _ => false) ['b'] "bb".toList (by decide)

set_option maxRecDepth 20000 in
set_option maxHeartbeats 4000000 in
/-- Claim C1, counterexample to the claim as stated: the dictionary entry
`AB` carries the `FORBIDDENWORD` flag, so `correct` rejects it, yet
`suggest` still returns it — candidate validity never consults `correct`
or the forbidden flags. -/
theorem c1_counterexample :
    suggestTop cfgA stA "AB".toList = ["AB".toList] ∧
      correctTop cfgA stA "AB".toList = false := by decide!

end NSpellV
